import Mathlib

/-!
# Verification of the pagelist-bot query compiler, optimizer, evaluator and task routines

This development is a shallow embedding of the Rust sources of pagelist-bot:

* `base/src/ir.rs` — the IR data model (`Instruction`, `SetConstraint`, …);
* `parser/src/ast.rs` — the AST (`Expr`, `Constraint`, …);
* `parser/src/optim.rs` — `construct_constraints_from_vec`, `merge_constraints`,
  `remove_redundent_talk`, `remove_empty_ns`, `remove_nop`;
* `src/parser/convert.rs` — `to_ir` / `ir_helper`;
* `src/solver/mod.rs` and `src/solver/util.rs` — the IR evaluator `solve_api`;
* `src/routine/pagewriter.rs`, `src/routine/taskrunner.rs`,
  `src/routine/queryexecutor.rs` — the task routines.

Machine integers: `RegID` is Rust `u64`, embedded as `Nat` (every subtraction in
the source is guarded so that it never underflows on reachable inputs);
`NamespaceID` and limits are Rust `i64`, embedded as `Int` (no arithmetic in the
embedded code can overflow 64 bits).  Rust `HashSet` values are embedded as
`Finset` and `HashMap` registers as functions to `Option`.  Fallible code
returns `Except`.

The surface grammar (`grammar.lalrpop`, generated `grammar.rs`) is an external
collaborator of the core; expressions are modelled at the AST (`Expr`) level,
which is where `to_ir` and every claim about compilation operates.
-/

namespace PagelistBot

/-- `mediawiki::api::NamespaceID` is `i64`; namespace ids appear as plain
`Int` below. -/
abbrev NamespaceID := Int

/-- `base/src/ir.rs`: `pub type RegID = u64;` register ids are dense small
naturals, appearing as plain `Nat` below (no subtraction in the embedded code
can underflow on reachable inputs). -/
abbrev RegID := Nat

/-- `base/src/ir.rs`: `pub type DepthNum = i64;` appearing as plain `Int`. -/
abbrev DepthNum := Int

/-- `base/src/ir.rs` `RedirectFilterStrategy`. -/
inductive RedirectFilterStrategy where
  | NoRedirect
  | OnlyRedirect
  | All
deriving DecidableEq

/-- `base/src/ir.rs` `SetConstraint`: a bag of optional modifiers. -/
structure SetConstraint where
  ns : Option (Finset Int)
  depth : Option Int
  redir : Option RedirectFilterStrategy
  directlink : Option Bool
  resolveredir : Option Bool
  limit : Option Int
deriving DecidableEq

/-- `SetConstraint::new()`: all fields `None`. -/
def SetConstraint.new : SetConstraint :=
  { ns := none, depth := none, redir := none, directlink := none,
    resolveredir := none, limit := none }

/-- `base/src/ir.rs` `Instruction`.  The source constructor `Prefix` is spelled
`Pfx` here (the plain source name is unavailable in this development); every
other constructor keeps its source name. -/
inductive Instruction where
  | And (dest op1 op2 : Nat)
  | Or (dest op1 op2 : Nat)
  | Exclude (dest op1 op2 : Nat)
  | Xor (dest op1 op2 : Nat)
  | Link (dest op : Nat) (cs : SetConstraint)
  | LinkTo (dest op : Nat) (cs : SetConstraint)
  | EmbeddedIn (dest op : Nat) (cs : SetConstraint)
  | InCat (dest op : Nat) (cs : SetConstraint)
  | Toggle (dest op : Nat)
  | Pfx (dest op : Nat) (cs : SetConstraint)
  | Set (dest : Nat) (titles : List String) (cs : SetConstraint)
  | Nop (dest op : Nat)
deriving DecidableEq

namespace Instruction

/-- `Instruction::is_nop`. -/
def is_nop : Instruction → Bool
  | .Nop _ _ => true
  | _ => false

/-- `Instruction::get_dest`. -/
def get_dest : Instruction → Nat
  | .And dest _ _ => dest
  | .Or dest _ _ => dest
  | .Exclude dest _ _ => dest
  | .Xor dest _ _ => dest
  | .Link dest _ _ => dest
  | .LinkTo dest _ _ => dest
  | .EmbeddedIn dest _ _ => dest
  | .InCat dest _ _ => dest
  | .Toggle dest _ => dest
  | .Pfx dest _ _ => dest
  | .Set dest _ _ => dest
  | .Nop dest _ => dest

/-- `Instruction::set_dest`. -/
def set_dest : Instruction → Nat → Instruction
  | .And _ op1 op2, d => .And d op1 op2
  | .Or _ op1 op2, d => .Or d op1 op2
  | .Exclude _ op1 op2, d => .Exclude d op1 op2
  | .Xor _ op1 op2, d => .Xor d op1 op2
  | .Link _ op cs, d => .Link d op cs
  | .LinkTo _ op cs, d => .LinkTo d op cs
  | .EmbeddedIn _ op cs, d => .EmbeddedIn d op cs
  | .InCat _ op cs, d => .InCat d op cs
  | .Toggle _ op, d => .Toggle d op
  | .Pfx _ op cs, d => .Pfx d op cs
  | .Set _ titles cs, d => .Set d titles cs
  | .Nop _ op, d => .Nop d op

/-- `Instruction::ns_empty`: the instruction carries a `SetConstraint` whose
`ns` field is `Some` of an empty set. -/
def ns_empty : Instruction → Bool
  | .Link _ _ cs | .LinkTo _ _ cs | .EmbeddedIn _ _ cs
  | .InCat _ _ cs | .Pfx _ _ cs | .Set _ _ cs =>
    match cs.ns with
    | some ns => ns = ∅
    | none => false
  | _ => false

end Instruction

/-- `parser/src/ast.rs` `UnaryOpcode`.  `Prefix` is spelled `Pfx`. -/
inductive UnaryOpcode where
  | Link
  | LinkTo
  | EmbeddedIn
  | InCategory
  | Toggle
  | Pfx
deriving DecidableEq

/-- `parser/src/ast.rs` `BinaryOpcode`. -/
inductive BinaryOpcode where
  | And
  | Or
  | Exclude
  | Xor
deriving DecidableEq

/-- `parser/src/ast.rs` `Constraint` (the surface `.constraint(...)` fragments);
the revision used by `optim.rs` and `convert.rs` also carries a `Limit`
fragment, which both files pattern-match on. -/
inductive Constraint where
  | Ns (ns : List Int)
  | Depth (d : Int)
  | Redir (s : RedirectFilterStrategy)
  | DirectLink (b : Bool)
  | ResolveRedir (b : Bool)
  | Limit (l : Int)
deriving DecidableEq

/-- `parser/src/ast.rs` `Expr`. -/
inductive Expr where
  | Page (titles : List String)
  | Unary (op : UnaryOpcode) (e : Expr)
  | Constrained (e : Expr) (cs : List Constraint)
  | Binary (l : Expr) (op : BinaryOpcode) (r : Expr)
deriving DecidableEq

/-- `PLBotParserError` (`src/parser/error.rs`). -/
inductive PLBotParserError where
  | Parse
  | Semantic (msg : String)
deriving DecidableEq

/-- The loop body of `construct_constraints_from_vec` (`parser/src/optim.rs`),
threading the six accumulators (held in a `SetConstraint`) through the
fragment list; an error aborts the whole construction. -/
def constructLoop (acc : SetConstraint) :
    List Constraint → Except PLBotParserError SetConstraint
  | [] => .ok acc
  | c :: rest =>
    match c with
    | .Ns n =>
      match acc.ns with
      | some old_set =>
        constructLoop { acc with ns := some (old_set ∩ n.toFinset) } rest
      | none => constructLoop { acc with ns := some n.toFinset } rest
    | .Depth d =>
      match acc.depth with
      | some n =>
        if n ≠ d ∧ (0 ≤ n ∨ 0 ≤ d) then
          .error (.Semantic ("conflict depth"))
        else constructLoop acc rest
      | none => constructLoop { acc with depth := some d } rest
    | .Redir s =>
      match acc.redir with
      | some ss =>
        if ss ≠ s then .error (.Semantic ("conflict redirect strategy"))
        else constructLoop acc rest
      | none => constructLoop { acc with redir := some s } rest
    | .DirectLink s =>
      match acc.directlink with
      | some ss =>
        if ss ≠ s then .error (.Semantic ("conflict direct link constraint"))
        else constructLoop acc rest
      | none => constructLoop { acc with directlink := some s } rest
    | .ResolveRedir s =>
      match acc.resolveredir with
      | some ss =>
        if ss ≠ s then .error (.Semantic ("conflict resolveredir constraint"))
        else constructLoop acc rest
      | none => constructLoop { acc with resolveredir := some s } rest
    | .Limit l =>
      match acc.limit with
      | some ll =>
        if ll < 0 then constructLoop { acc with limit := some l } rest
        else constructLoop { acc with limit := some (min l ll) } rest
      | none => constructLoop { acc with limit := some l } rest

/-- `parser/src/optim.rs` `construct_constraints_from_vec`. -/
def construct_constraints_from_vec (orig : List Constraint) :
    Except PLBotParserError SetConstraint :=
  constructLoop SetConstraint.new orig

/-- `parser/src/optim.rs` `merge_constraints`.  Each field is merged by the
source's `if`/`else if`/`else` chain; an `Err` in an `else` arm aborts the
whole merge (Rust's early `return`), threaded here with explicit
`Except.bind`. -/
def merge_constraints (orig other : SetConstraint) :
    Except PLBotParserError SetConstraint :=
  Except.bind
    (match orig.ns, other.ns with
     | none, o => .ok o
     | some s, none => .ok (some s)
     | some s, some t => .ok (some (s ∩ t))) fun ns =>
  Except.bind
    (match orig.depth, other.depth with
     | none, o => .ok o
     | some d, none => .ok (some d)
     | some d, some d2 =>
       if d = d2 ∨ (d < 0 ∧ d2 < 0) then .ok (some d)
       else .error (.Semantic ("conflict depth"))) fun depth =>
  Except.bind
    (match orig.redir, other.redir with
     | none, o => .ok o
     | some r, none => .ok (some r)
     | some r, some r2 =>
       if r = r2 then .ok (some r)
       else .error (.Semantic ("conflict redirect strategy"))) fun redir =>
  Except.bind
    (match orig.directlink, other.directlink with
     | none, o => .ok o
     | some b, none => .ok (some b)
     | some b, some b2 =>
       if b = b2 then .ok (some b)
       else .error (.Semantic ("conflict directlink constraint"))) fun directlink =>
  Except.bind
    (match orig.resolveredir, other.resolveredir with
     | none, o => .ok o
     | some b, none => .ok (some b)
     | some b, some b2 =>
       if b = b2 then .ok (some b)
       else .error (.Semantic ("conflict resolveredir constraint"))) fun resolveredir =>
  let limit :=
    match orig.limit, other.limit with
    | none, o => o
    | some l, o => if l < 0 then o else
      match o with
      | none => some l
      | some l2 => if l2 < 0 then some l else some (min l l2)
  .ok { ns := ns, depth := depth, redir := redir, directlink := directlink,
        resolveredir := resolveredir, limit := limit }

/-- `ir.binary_search_by(|probe| probe.get_dest().cmp(&target))`.  Everywhere
the source performs this search the vector is sorted by `dest` with pairwise
distinct `dest` values (invariant I2), so Rust's binary search returns the
unique matching index; it is embedded as a first-match scan, which agrees with
it on such vectors. -/
def findDest (ir : List Instruction) (target : Nat) : Option Nat :=
  ir.findIdx? (fun probe => probe.get_dest = target)

/-- `*i ^= 0b1` on an `i64` namespace id (`src/parser/convert.rs`, `Toggle`
arm): flip the lowest bit of the two's-complement representation, i.e. `n + 1`
for even `n` and `n - 1` for odd `n` (also for negative ids: `-1 ^ 1 = -2`,
`-2 ^ 1 = -1`). -/
def toggleNsId (n : Int) : Int :=
  if n % 2 = 0 then n + 1 else n - 1

/-- The constraint-application stack loop inside `ir_helper`
(`src/parser/convert.rs`, the `Expr::Constrained` arm): pop a
`(target, constraint)` pair, locate the instruction producing `target`, and
either merge the constraint into it (unary and primitive instructions, after
rejecting the modifier fields inapplicable to that operator) or push it on to
the operand registers (binary instructions distribute to both operands;
`Toggle` first XORs the low bit of every namespace id; `Nop` passes through).

The loop is embedded with explicit fuel.  On the IR emitted by `irNode` the
propagation targets pushed by one pop are operand registers, which are pairwise
distinct across the whole program and strictly below the popped instruction's
`dest`, so each instruction is visited at most once and `inst.length + 1` fuel
is never exhausted; the fuel case mirrors no source behaviour and is
unreachable from `to_ir`. -/
def applyConstraint :
    Nat → List Instruction → List (Nat × SetConstraint) →
    Except PLBotParserError (List Instruction)
  | _, inst, [] => .ok inst
  | 0, _, _ => .error (.Semantic ("internal constraint propagation divergence"))
  | fuel + 1, inst, (target, con) :: rest =>
    match findDest inst target with
    | none => .error (.Semantic ("internal instruction not found while generating"))
    | some idx =>
      match inst[idx]? with
      | none => .error (.Semantic ("internal instruction not found while generating"))
      | some i =>
        match i with
        | .And _ op1 op2 | .Or _ op1 op2 | .Exclude _ op1 op2 | .Xor _ op1 op2 =>
          applyConstraint fuel inst ((op1, con) :: (op2, con) :: rest)
        | .Link dest op cs =>
          if con.depth.isSome ∨ con.directlink.isSome then
            .error (.Semantic ("invalid constraint"))
          else if con.redir.isSome ∧ con.redir ≠ some .All then
            .error (.Semantic ("invalid redirect strategy"))
          else do
            let new_constraint ← merge_constraints cs con
            applyConstraint fuel (inst.set idx (.Link dest op new_constraint)) rest
        | .LinkTo dest op cs =>
          if con.depth.isSome then
            .error (.Semantic ("invalid depth constraint"))
          else do
            let new_constraint ← merge_constraints cs con
            applyConstraint fuel (inst.set idx (.LinkTo dest op new_constraint)) rest
        | .EmbeddedIn dest op cs =>
          if con.depth.isSome ∨ con.directlink.isSome then
            .error (.Semantic ("invalid constraint"))
          else do
            let new_constraint ← merge_constraints cs con
            applyConstraint fuel (inst.set idx (.EmbeddedIn dest op new_constraint)) rest
        | .InCat dest op cs =>
          if con.redir.isSome ∧ con.redir ≠ some .All then
            .error (.Semantic ("invalid redirect strategy"))
          else if con.directlink.isSome then
            .error (.Semantic ("invalid directlink constraint"))
          else do
            let new_constraint ← merge_constraints cs con
            applyConstraint fuel (inst.set idx (.InCat dest op new_constraint)) rest
        | .Toggle _ op =>
          match con.ns with
          | some ns_set =>
            let new_con : SetConstraint :=
              { ns := some (ns_set.image toggleNsId), depth := con.depth,
                redir := con.redir, directlink := con.directlink,
                resolveredir := con.resolveredir, limit := con.limit }
            applyConstraint fuel inst ((op, new_con) :: rest)
          | none => applyConstraint fuel inst ((op, con) :: rest)
        | .Pfx dest op cs =>
          if con.depth.isSome ∨ con.directlink.isSome ∨ con.resolveredir.isSome then
            .error (.Semantic ("invalid constraint"))
          else do
            let new_constraint ← merge_constraints cs con
            applyConstraint fuel (inst.set idx (.Pfx dest op new_constraint)) rest
        | .Nop _ op =>
          applyConstraint fuel inst ((op, con) :: rest)
        | .Set dest titles cs =>
          if con.depth.isSome ∨ con.redir.isSome ∨ con.directlink.isSome ∨
              con.resolveredir.isSome then
            .error (.Semantic ("invalid constraint"))
          else do
            let new_constraint ← merge_constraints cs con
            applyConstraint fuel (inst.set idx (.Set dest titles new_constraint)) rest

/-- `ir_helper` (`src/parser/convert.rs`).  The source drives an explicit stack
down the chain of `Unary`/`Constrained` nodes and then pops it in postorder,
recursing (via `ir_helper`) for the children of a `Binary` node; this is the
same computation expressed as structural recursion.  Returns the emitted
instructions together with the final (last-emitted) register id; the source
returns `(inst, reg_id - 1)` where `reg_id` is the next free id. -/
def irNode : Expr → Nat → Except PLBotParserError (List Instruction × Nat)
  | .Page l, reg => .ok ([.Set reg l SetConstraint.new], reg)
  | .Unary op c, reg => do
    let (insts, d) ← irNode c reg
    let instruct : Instruction :=
      match op with
      | .Link => .Link (d + 1) d SetConstraint.new
      | .LinkTo => .LinkTo (d + 1) d SetConstraint.new
      | .EmbeddedIn => .EmbeddedIn (d + 1) d SetConstraint.new
      | .InCategory => .InCat (d + 1) d SetConstraint.new
      | .Toggle => .Toggle (d + 1) d
      | .Pfx => .Pfx (d + 1) d SetConstraint.new
    .ok (insts ++ [instruct], d + 1)
  | .Binary l op r, reg => do
    let (lop, left_dest) ← irNode l reg
    let (rop, right_dest) ← irNode r (left_dest + 1)
    let instruct : Instruction :=
      match op with
      | .And => .And (right_dest + 1) left_dest right_dest
      | .Or => .Or (right_dest + 1) left_dest right_dest
      | .Exclude => .Exclude (right_dest + 1) left_dest right_dest
      | .Xor => .Xor (right_dest + 1) left_dest right_dest
    .ok (lop ++ rop ++ [instruct], right_dest + 1)
  | .Constrained c cons, reg => do
    let (insts, d) ← irNode c reg
    let constraint_struct ← construct_constraints_from_vec cons
    let insts' ← applyConstraint (insts.length + 1) insts [(d, constraint_struct)]
    .ok (insts', d)

/-- `to_ir` (`src/parser/convert.rs`): `ir_helper(ast, 0)`. -/
def to_ir (ast : Expr) : Except PLBotParserError (List Instruction × Nat) :=
  irNode ast 0

/-- The `for idx in 0..ir.len()` loop of `remove_redundent_talk`
(`parser/src/optim.rs`), as recursion on the remaining trip count: a
`Toggle { dest, op }` whose operand is produced by another `Toggle` rewrites
both instructions to `Nop`s with unchanged `dest`/`op` fields. -/
def talkLoop : Nat → List Instruction → Nat → List Instruction
  | 0, ir, _ => ir
  | n + 1, ir, idx =>
    if h : idx < ir.length then
      let ir' :=
        match ir[idx] with
        | .Toggle dest op =>
          match findDest ir op with
          | some idx2 =>
            match ir[idx2]? with
            | some (.Toggle dest2 op2) =>
              (ir.set idx (.Nop dest op)).set idx2 (.Nop dest2 op2)
            | _ => ir
          | none => ir
        | _ => ir
      talkLoop n ir' (idx + 1)
    else ir

/-- `parser/src/optim.rs` `remove_redundent_talk`: the loop runs exactly
`ir.len()` iterations (the pass never changes the length). -/
def remove_redundent_talk (ir : List Instruction) : List Instruction :=
  talkLoop ir.length ir 0

/-- The `while let Some(opdest) = stack.pop()` loop inside `remove_empty_ns`
(`parser/src/optim.rs`): walk the subtree below a register, replacing unary
instructions by `Nop`s (keeping `dest` and `op`) and `Set` instructions by
empty `Set`s, descending through binary instructions (which are left in place)
and `Nop`s.

Embedded with explicit fuel.  On the IR reached from `parse` every propagation
target is an operand register, operand registers are pairwise distinct across
the program and strictly below their instruction's `dest`, so at most
`ir.length` targets are ever pushed and `2 * ir.length + 2` fuel is never
exhausted; the fuel case mirrors no source behaviour and is unreachable. -/
def emptyNsStack : Nat → List Instruction → List Nat → List Instruction
  | _, ir, [] => ir
  | 0, ir, _ => ir
  | fuel + 1, ir, opdest :: rest =>
    match findDest ir opdest with
    | none => emptyNsStack fuel ir rest
    | some idx =>
      match ir[idx]? with
      | some (.And _ op1 op2) | some (.Or _ op1 op2)
      | some (.Exclude _ op1 op2) | some (.Xor _ op1 op2) =>
        emptyNsStack fuel ir (op1 :: op2 :: rest)
      | some (.Link dest op _) | some (.LinkTo dest op _)
      | some (.EmbeddedIn dest op _) | some (.InCat dest op _)
      | some (.Toggle dest op) | some (.Pfx dest op _) =>
        emptyNsStack fuel (ir.set idx (.Nop dest op)) (op :: rest)
      | some (.Set dest _ _) =>
        emptyNsStack fuel (ir.set idx (.Set dest [] SetConstraint.new)) rest
      | some (.Nop _ op) =>
        emptyNsStack fuel ir (op :: rest)
      | none => emptyNsStack fuel ir rest

/-- The `for idx in 0..ir.len()` loop of `remove_empty_ns`: for every
instruction whose namespace constraint is explicitly empty, rewrite its
subtree with `emptyNsStack`, starting from its own `dest`. -/
def emptyNsLoop : Nat → List Instruction → Nat → List Instruction
  | 0, ir, _ => ir
  | n + 1, ir, idx =>
    if h : idx < ir.length then
      let ir' :=
        if (ir[idx]).ns_empty then
          emptyNsStack (2 * ir.length + 2) ir [(ir[idx]).get_dest]
        else ir
      emptyNsLoop n ir' (idx + 1)
    else ir

/-- `parser/src/optim.rs` `remove_empty_ns` (the pass never changes the
length, so the loop runs exactly `ir.len()` iterations). -/
def remove_empty_ns (ir : List Instruction) : List Instruction :=
  emptyNsLoop ir.length ir 0

/-- The inner `while let Ok(idx2) = ir.binary_search_by(...)` loop of
`remove_nop` (`parser/src/optim.rs`): while some instruction produces the
`Nop`'s operand `op`, redirect it to the `Nop`'s `dest` and remove the element
at position `idx`.  `Vec::remove` panics when `idx` is out of bounds; that
situation is unreachable on the sorted, duplicate-free IR this pass receives
(the loop body runs exactly once there), and the embedding makes the removal a
no-op in that case.  Fuel bounds the iterations; each successful search removes
one element, so `ir.length + 1` fuel is never exhausted. -/
def removeNopInner :
    Nat → List Instruction → Nat → Nat → Nat → Bool →
    List Instruction × Bool
  | 0, ir, _, _, _, deleted => (ir, deleted)
  | fuel + 1, ir, idx, dest, op, deleted =>
    match findDest ir op with
    | none => (ir, deleted)
    | some idx2 =>
      let ir' := (ir.modify (fun i => i.set_dest dest) idx2).eraseIdx idx
      removeNopInner fuel ir' idx dest op true

/-- The outer `while idx < ir.len()` loop of `remove_nop`: advance `idx` only
when the current instruction was not deleted.  Every iteration either removes
at least one element or advances `idx`, so `2 * ir.length + 1` fuel is never
exhausted. -/
def removeNopLoop : Nat → List Instruction → Nat → List Instruction
  | 0, ir, _ => ir
  | fuel + 1, ir, idx =>
    if h : idx < ir.length then
      match ir[idx] with
      | .Nop dest op =>
        let res := removeNopInner (ir.length + 1) ir idx dest op false
        if res.2 then removeNopLoop fuel res.1 idx
        else removeNopLoop fuel res.1 (idx + 1)
      | _ => removeNopLoop fuel ir (idx + 1)
    else ir

/-- `parser/src/optim.rs` `remove_nop`. -/
def remove_nop (ir : List Instruction) : List Instruction :=
  removeNopLoop (2 * ir.length + 1) ir 0

/-- `parse` (`src/parser/mod.rs`), from the AST on: `to_ir`, then
`remove_redundent_talk`, `remove_empty_ns` and `remove_nop` in order.  (The
surface grammar step, which can only produce `PLBotParserError::Parse`, is the
external collaborator that builds the `Expr`.) -/
def parse (ast : Expr) : Except PLBotParserError (List Instruction × Nat) := do
  let (ir_ls, ir_fin) ← to_ir ast
  let ir_ls := remove_redundent_talk ir_ls
  let ir_ls := remove_empty_ns ir_ls
  let ir_ls := remove_nop ir_ls
  .ok (ir_ls, ir_fin)

/-! ## The evaluator (`src/solver/mod.rs`) -/

/-- `mediawiki::title::Title` (external collaborator): a (namespace id,
printable base name) pair; equality and hashing are over both components
(spec §3, Page title). -/
structure Title where
  namespace_id : Int
  pretty : String
deriving DecidableEq

/-- Modelled from the spec: the `mediawiki` crate's `Title::into_toggle_talk`
(external collaborator, used by the `Toggle` arm of `solve_api`) maps a title
to its talk/non-talk counterpart by flipping the namespace id's low bit
(spec §4.4 Toggle, glossary: toggling talk/subject equals XOR by 1). -/
def Title.into_toggle_talk (t : Title) : Title :=
  { t with namespace_id := toggleNsId t.namespace_id }

/-- The title comparator of `QueryExecutor::execute`
(`src/routine/queryexecutor.rs`, `titles_vec.sort_by`): namespace id
ascending, then printable name ascending.  It is also used to enumerate a
`HashSet<Title>` wherever the source iterates one (iteration order there is
arbitrary, and every place this embedding enumerates a set either the set is a
singleton or the order is irrelevant). -/
def titleLe (a b : Title) : Prop :=
  a.namespace_id < b.namespace_id ∨
    (a.namespace_id = b.namespace_id ∧ a.pretty ≤ b.pretty)

instance : DecidableRel titleLe := fun _ _ =>
  inferInstanceAs (Decidable (_ ∨ _))

instance : IsTrans Title titleLe where
  trans a b c hab hbc := by
    rcases hab with h1 | ⟨e1, p1⟩ <;> rcases hbc with h2 | ⟨e2, p2⟩
    · exact Or.inl (lt_trans h1 h2)
    · exact Or.inl (e2 ▸ h1)
    · exact Or.inl (e1 ▸ h2)
    · exact Or.inr ⟨e1.trans e2, le_trans p1 p2⟩

instance : IsAntisymm Title titleLe where
  antisymm a b hab hba := by
    rcases hab with h1 | ⟨e1, p1⟩ <;> rcases hba with h2 | ⟨e2, p2⟩
    · exact absurd h2 (lt_asymm h1)
    · exact absurd h1 (e2 ▸ lt_irrefl _)
    · exact absurd h2 (e1 ▸ lt_irrefl _)
    · cases a; cases b
      simp only [Title.mk.injEq]
      exact ⟨e1, le_antisymm p1 p2⟩

instance : IsTotal Title titleLe where
  total a b := by
    rcases lt_trichotomy a.namespace_id b.namespace_id with h | h | h
    · exact Or.inl (Or.inl h)
    · rcases le_total a.pretty b.pretty with hp | hp
      · exact Or.inl (Or.inr ⟨h, hp⟩)
      · exact Or.inr (Or.inr ⟨h.symm, hp⟩)
    · exact Or.inr (Or.inl h)

/-- Sort a set of titles by `(namespace id ascending, printable name
ascending)` — the `sort_by` call of `QueryExecutor::execute`.  The source
sorts `Vec::from_iter(hash_set)`; the comparator is total, transitive and
(on distinct elements of a set) never ties, so the sorted vector does not
depend on the arbitrary `HashSet` iteration order and equals this list. -/
def sortTitles (s : Finset Title) : List Title :=
  s.sort titleLe

/-- `SolveError` (`src/solver/error.rs`); the `MediaWiki` payload (an external
error type) is carried as its message string. -/
inductive SolveError where
  | MediaWiki (msg : String)
  | APIAccessFail (code info : String)
  | QueryForMultiplePages
  | UnknownIntermediateValue
  | NotCategory
deriving DecidableEq

/-- `pub(crate) type Register = HashMap<Nat, HashSet<Title>>;`
(`src/solver/mod.rs`). -/
def Register := Nat → Option (Finset Title)

/-- `reg.insert(dest, set)`. -/
def Register.insert (reg : Register) (dest : Nat) (s : Finset Title) : Register :=
  fun r => if r = dest then some s else reg r

/-- `get_set_1` (`src/solver/util.rs`). -/
def get_set_1 (reg : Register) (reg_id : Nat) : Except SolveError (Finset Title) :=
  match reg reg_id with
  | some s => .ok s
  | none => .error .UnknownIntermediateValue

/-- `get_set_2` (`src/solver/util.rs`). -/
def get_set_2 (reg : Register) (reg_id1 reg_id2 : Nat) :
    Except SolveError (Finset Title × Finset Title) :=
  match reg reg_id1, reg reg_id2 with
  | some s1, some s2 => .ok (s1, s2)
  | _, _ => .error .UnknownIntermediateValue

/-- The remote page-set primitives of `src/solver/apisolver.rs` and the title
parser of the API gateway, abstracted as an oracle: each field has exactly the
argument list `solve_api` passes to the corresponding function, and stands for
one batch of remote API traffic (the HTTP gateway is an external collaborator,
spec §1).  A `solve_api` result that holds for every oracle is obtained
without remote traffic.  `get_pfx_index_one` is the source's
`get_prefix_index_one`. -/
structure ApiOracle where
  get_links_one :
    Title → Option (Finset Int) → Bool → Int → Except SolveError (Finset Title)
  get_backlinks_one :
    Title → Option (Finset Int) → Bool → RedirectFilterStrategy → Bool → Int →
    Except SolveError (Finset Title)
  get_embed_one :
    Title → Option (Finset Int) → RedirectFilterStrategy → Bool → Int →
    Except SolveError (Finset Title)
  get_category_members_one :
    Title → Option (Finset Int) → Int → Bool → Int →
    Except SolveError (Finset Title)
  get_pfx_index_one :
    Title → Option (Finset Int) → RedirectFilterStrategy → Int →
    Except SolveError (Finset Title)
  title_new_from_full : String → Except SolveError Title

/-- The `for t in set.iter() { result_set.extend(... one(t, ...)?) }` loop of
the remote-fetch arms of `solve_api`: it only ever runs over a singleton (the
guards have already excluded empty and multi-element operands).  `HashSet`
iteration order is arbitrary; on a singleton every order agrees with
`Finset.toList`. -/
def extendFold (f : Title → Except SolveError (Finset Title)) :
    List Title → Finset Title → Except SolveError (Finset Title)
  | [], acc => .ok acc
  | t :: ts, acc => do
    let res_one ← f t
    extendFold f ts (acc ∪ res_one)

/-- The `for t in titles` loop of the `Set` arm of `solve_api`: parse each
literal title through the gateway, silently dropping titles whose namespace is
outside the constraint `ns`. -/
def buildSetTitles (o : ApiOracle) (nss : Option (Finset Int)) :
    List String → Finset Title → Except SolveError (Finset Title)
  | [], acc => .ok acc
  | t :: ts, acc => do
    let title ← o.title_new_from_full t
    match nss with
    | some nss' =>
      if title.namespace_id ∈ nss' then buildSetTitles o nss ts (insert title acc)
      else buildSetTitles o nss ts acc
    | none => buildSetTitles o nss ts (insert title acc)

/-- One iteration of the instruction loop of `solve_api`
(`src/solver/mod.rs`): execute a single instruction against the register
file.  Remote-fetch instructions short-circuit an empty operand to an empty
result and fail with `QueryForMultiplePages` on an operand of more than one
page; binary instructions compute intersection, union, difference and
symmetric difference; `Toggle` maps `into_toggle_talk` over the operand;
`Set` builds a set from literal titles; `Nop` copies its operand register. -/
def solveStep (o : ApiOracle) (default_limit : Int) (reg : Register) :
    Instruction → Except SolveError Register
  | .And dest op1 op2 => do
    let (set1, set2) ← get_set_2 reg op1 op2
    .ok (reg.insert dest (set1 ∩ set2))
  | .Or dest op1 op2 => do
    let (set1, set2) ← get_set_2 reg op1 op2
    .ok (reg.insert dest (set1 ∪ set2))
  | .Exclude dest op1 op2 => do
    let (set1, set2) ← get_set_2 reg op1 op2
    .ok (reg.insert dest (set1 \ set2))
  | .Xor dest op1 op2 => do
    let (set1, set2) ← get_set_2 reg op1 op2
    .ok (reg.insert dest ((set1 \ set2) ∪ (set2 \ set1)))
  | .Link dest op cs => do
    let set ← get_set_1 reg op
    if set = ∅ then .ok (reg.insert dest ∅)
    else if 1 < set.card then .error .QueryForMultiplePages
    else do
      let result_set ← extendFold
        (fun t => o.get_links_one t cs.ns (cs.resolveredir.getD false)
          (cs.limit.getD default_limit)) (sortTitles set) ∅
      .ok (reg.insert dest result_set)
  | .LinkTo dest op cs => do
    let set ← get_set_1 reg op
    if set = ∅ then .ok (reg.insert dest ∅)
    else if 1 < set.card then .error .QueryForMultiplePages
    else do
      let result_set ← extendFold
        (fun t => o.get_backlinks_one t cs.ns (!cs.directlink.getD false)
          (cs.redir.getD .All) (cs.resolveredir.getD false)
          (cs.limit.getD default_limit)) (sortTitles set) ∅
      .ok (reg.insert dest result_set)
  | .EmbeddedIn dest op cs => do
    let set ← get_set_1 reg op
    if set = ∅ then .ok (reg.insert dest ∅)
    else if 1 < set.card then .error .QueryForMultiplePages
    else do
      let result_set ← extendFold
        (fun t => o.get_embed_one t cs.ns (cs.redir.getD .All)
          (cs.resolveredir.getD false) (cs.limit.getD default_limit)) (sortTitles set) ∅
      .ok (reg.insert dest result_set)
  | .InCat dest op cs => do
    let set ← get_set_1 reg op
    if set = ∅ then .ok (reg.insert dest ∅)
    else if 1 < set.card then .error .QueryForMultiplePages
    else do
      let sub_limit := cs.depth.getD 0
      let result_set ← extendFold
        (fun t => o.get_category_members_one t cs.ns sub_limit
          (cs.resolveredir.getD false) (cs.limit.getD default_limit)) (sortTitles set) ∅
      .ok (reg.insert dest result_set)
  | .Toggle dest op => do
    let set ← get_set_1 reg op
    .ok (reg.insert dest (set.image Title.into_toggle_talk))
  | .Pfx dest op cs => do
    let set ← get_set_1 reg op
    if set = ∅ then .ok (reg.insert dest ∅)
    else if 1 < set.card then .error .QueryForMultiplePages
    else do
      let result_set ← extendFold
        (fun t => o.get_pfx_index_one t cs.ns (cs.redir.getD .All)
          (cs.limit.getD default_limit)) (sortTitles set) ∅
      .ok (reg.insert dest result_set)
  | .Set dest titles cs => do
    let title_set ← buildSetTitles o cs.ns titles ∅
    .ok (reg.insert dest title_set)
  | .Nop dest op => do
    let set ← get_set_1 reg op
    .ok (reg.insert dest set)

/-- The instruction loop of `solve_api`. -/
def solveList (o : ApiOracle) (default_limit : Int) :
    List Instruction → Register → Except SolveError Register
  | [], reg => .ok reg
  | inst :: rest, reg => do
    solveList o default_limit rest (← solveStep o default_limit reg inst)

/-- `solve_api` (`src/solver/mod.rs`): run every instruction in order against
an initially empty register file, then read the final-result register. -/
def solve_api (o : ApiOracle) (query : List Instruction × Nat)
    (default_limit : Int) : Except SolveError (Finset Title) := do
  let reg ← solveList o default_limit query.1 (fun _ => none)
  get_set_1 reg query.2

/-! ## The task routines (`src/routine/`) -/

/-- `QueryExecutorError` (`src/routine/queryexecutor.rs`). -/
inductive QueryExecutorError where
  | Timeout
  | Parse
  | Solve
deriving DecidableEq

/-- `TaskConfig` (`src/routine/types.rs`): `timeout` is `u64` seconds,
`querylimit` is `i64`. -/
structure TaskConfig where
  timeout : Nat
  querylimit : Int
deriving DecidableEq

instance {ε α : Type} [DecidableEq ε] [DecidableEq α] : DecidableEq (Except ε α) :=
  fun x y =>
    match x, y with
    | .ok a, .ok b =>
      if h : a = b then .isTrue (by rw [h]) else .isFalse (by simp [h])
    | .error a, .error b =>
      if h : a = b then .isTrue (by rw [h]) else .isFalse (by simp [h])
    | .ok _, .error _ => .isFalse (by simp)
    | .error _, .ok _ => .isFalse (by simp)

/-- `QueryExecutor` (`src/routine/queryexecutor.rs`): the query source, the
effective config, and the lazily-computed cached outcome. -/
structure QueryExecutor where
  query : String
  querylimit : TaskConfig
  result : Option (Except QueryExecutorError (List Title))
deriving DecidableEq

/-- `QueryExecutor::new`. -/
def QueryExecutor.new (query : String) (limit : TaskConfig) : QueryExecutor :=
  { query := query, querylimit := limit, result := none }

/-- `QueryExecutor::execute` (`src/routine/queryexecutor.rs`).  When
`self.result` is already `Some`, the body is skipped and the cached value is
returned unchanged.  Otherwise the query is parsed and solved under
`tokio::time::timeout`; that computation — the surface-grammar parse of
`self.query` (external collaborator), the remote evaluation and the wall-clock
timeout — is abstracted as the `outcome` argument, already classified the way
`execute` classifies it (`Parse` / `Timeout` / `Solve` / success set); on
success the titles are sorted with the source comparator (namespace id
ascending, then printable name ascending) and cached.  A result that holds for
every `outcome` is obtained without re-parsing, re-evaluating or remote
traffic. -/
def QueryExecutor.execute (outcome : Except QueryExecutorError (Finset Title))
    (s : QueryExecutor) : Except QueryExecutorError (List Title) × QueryExecutor :=
  match s.result with
  | some r => (r, s)
  | none =>
    let r : Except QueryExecutorError (List Title) :=
      match outcome with
      | .error e => .error e
      | .ok query_result => .ok (sortTitles query_result)
    (r, { s with result := some r })

/-- The task-descriptor fields `TaskRunner::start` reads before and around the
execution decision (`TaskInfo` in the revision used by
`src/routine/taskrunner.rs`: `activate` and the `cron` expression; the
remaining fields only feed the execution body). -/
structure RunnerTaskInfo where
  activate : Bool
  cron : String
deriving DecidableEq

/-- How one iteration of the `TaskRunner::start` loop goes back to sleep. -/
inductive RunnerSleep where
  | untilCron
  | backoffSecs (n : Nat)
deriving DecidableEq

/-- The observable outcome of one iteration of the `TaskRunner::start` loop:
whether the task body (page writing) ran, the `aligned_to_cron` flag for the
next iteration, and the sleep performed. -/
structure RunnerStepResult where
  executed : Bool
  aligned_to_cron : Bool
  sleep : RunnerSleep
deriving DecidableEq

/-- One iteration of the `tokio::spawn`ed loop of `TaskRunner::start`
(`src/routine/taskrunner.rs`).  `task` is the result of the task fetch
(`None` when the page fetch, the content extraction or the JSON parse failed);
`cronParses` abstracts the external cron parser
(`cron::Schedule::from_str`); `global_activated` is the value read from the
global activate cell.  The body executes iff the task was fetched and
`global_activated && task.activate && aligned_to_cron`; a successful cron
parse sets `aligned_to_cron = true` and sleeps until the computed wake time,
while a cron-parse failure or a fetch failure resets `aligned_to_cron` and
retries in `10 * 60` seconds. -/
def runnerStep (cronParses : String → Bool) (global_activated : Bool)
    (aligned_to_cron : Bool) (task : Option RunnerTaskInfo) : RunnerStepResult :=
  match task with
  | some t =>
    let executed := global_activated && t.activate && aligned_to_cron
    if cronParses t.cron then
      { executed := executed, aligned_to_cron := true, sleep := .untilCron }
    else
      { executed := executed, aligned_to_cron := false,
        sleep := .backoffSecs (10 * 60) }
  | none =>
    { executed := false, aligned_to_cron := false,
      sleep := .backoffSecs (10 * 60) }

/-- `aligned_to_cron` is initialized to `false` before the first iteration of
`TaskRunner::start`. -/
def runnerInitialAligned : Bool := false

/-- `OutputFormat` as used by `src/routine/pagewriter.rs`
(`outputformat.target`, `.failure`, `.empty`, `.success.before`, `.success.item`,
`.success.between`, `.success.after`; the `types.rs` revision in the corpus is
older and lacks the `success`/`failure`/`empty` fields — the shape is the one
of spec §6). -/
structure OutputSuccessFormat where
  before : String
  item : String
  between : String
  after : String
deriving DecidableEq

structure OutputFormat where
  target : String
  failure : String
  empty : String
  success : OutputSuccessFormat
deriving DecidableEq

/-- What one iteration of the per-target loop of `PageWriter::start`
(`src/routine/pagewriter.rs`) does with its target page, as decided by the
guardrail chain. -/
inductive PageGuardrailOutcome where
  /-- `info.get("missing").is_some()`: log and skip. -/
  | skipMissing
  /-- `info.get("redirect").is_some()`: log and skip. -/
  | skipRedirect
  /-- a denied-namespace set is configured and contains the page's namespace:
  log and skip. -/
  | skipDeniedNamespace
  /-- a denied-namespace set is configured and does **not** contain the page's
  namespace: the `if denied_namespace.contains(..)` has no `else`, and the
  branch that executes the query and edits the page is the `else` of
  `if let Some(denied_namespace) = self.denied_namespace`, so the iteration
  falls through and performs no edit. -/
  | fallthrough
  /-- no denied-namespace set is configured (`self.denied_namespace` is
  `None`): the query runs, the body is composed and `action=edit` is
  submitted. -/
  | edit
deriving DecidableEq

/-- The guardrail chain of `PageWriter::start` for one target page, from the
`prop=info` response (`missing` present?, `redirect` present?, `ns`) and the
configured denied-namespace set, transcribing the
`if / else if / else if let / else` chain at lines 147–200 literally. -/
def pageGuardrailOutcome (missing redirect : Bool) (ns : Int)
    (denied_namespace : Option (Finset Int)) : PageGuardrailOutcome :=
  if missing then .skipMissing
  else if redirect then .skipRedirect
  else
    match denied_namespace with
    | some dns =>
      if ns ∈ dns then .skipDeniedNamespace else .fallthrough
    | none => .edit

/-- `PageWriter::make_edit_summary`. -/
def make_edit_summary (result : Except QueryExecutorError (List Title)) : String :=
  match result with
  | .ok v =>
    match v.length with
    | 0 => "Update query: empty"
    | 1 => "Update query: 1 result"
    | l => "Update query: " ++ toString l ++ " results"
  | .error _ => "Update query: failure"

/-- `PageWriter::make_header_content`: the header-status marker
`<noinclude>{{subst:<header>|taskid=<id>|status=<status>}}</noinclude>`. -/
def make_header_content (header_template_name : String) (task_id : Int)
    (result : Except QueryExecutorError (List Title)) : String :=
  let status_text :=
    match result with
    | .ok _ => "success"
    | .error .Timeout => "timeout"
    | .error .Parse => "parse"
    | .error .Solve => "runtime"
  "<noinclude>\x7b\x7bsubst:" ++ header_template_name ++ "|taskid=" ++
    toString task_id ++ "|status=" ++ status_text ++ "\x7d\x7d</noinclude>"

/-- The character loop of `PageWriter::substitute_str_template`, carrying the
escape flag: `$$` → `$`, `$+` → total count, any other `$X` is emitted
verbatim; a trailing lone `$` is dropped (the loop ends with the escape flag
still set and pushes nothing). -/
def substLoop (total_num : Nat) : List Char → Bool → String
  | [], _ => ""
  | c :: cs, true =>
    (match c with
     | '$' => "$"
     | '+' => toString total_num
     | _ => "$" ++ String.singleton c) ++ substLoop total_num cs false
  | c :: cs, false =>
    if c = '$' then substLoop total_num cs true
    else String.singleton c ++ substLoop total_num cs false

/-- `PageWriter::substitute_str_template`. -/
def substitute_str_template (template : String) (total_num : Nat) : String :=
  substLoop total_num template.toList false

/-- The character loop of `PageWriter::substitute_str_template_with_title`.
`fullPretty` and `namespaceName` abstract `API_SERVICE.full_pretty` and
`API_SERVICE.namespace_name` (gateway title-formatting helpers; the source
replaces any failure by the empty string, so they are total here). -/
def substTitleLoop (fullPretty namespaceName : Title → String) (t : Title)
    (current_num total_num : Nat) : List Char → Bool → String
  | [], _ => ""
  | c :: cs, true =>
    (match c with
     | '$' => "$"
     | '0' => fullPretty t
     | '1' => namespaceName t
     | '2' => t.pretty
     | '@' => toString current_num
     | '+' => toString total_num
     | _ => "$" ++ String.singleton c) ++
      substTitleLoop fullPretty namespaceName t current_num total_num cs false
  | c :: cs, false =>
    if c = '$' then substTitleLoop fullPretty namespaceName t current_num total_num cs true
    else String.singleton c ++
      substTitleLoop fullPretty namespaceName t current_num total_num cs false

/-- `PageWriter::substitute_str_template_with_title`. -/
def substitute_str_template_with_title (fullPretty namespaceName : Title → String)
    (template : String) (t : Title) (current_num total_num : Nat) : String :=
  substTitleLoop fullPretty namespaceName t current_num total_num template.toList false

/-- The body composed by the edit branch of `PageWriter::start`: the
header-status marker followed by the empty-result string, the substituted
`before`/`item`(joined by `between`)/`after` sequence, or the failure string. -/
def composeBody (fullPretty namespaceName : Title → String)
    (header_template_name : String) (task_id : Int) (of : OutputFormat)
    (result : Except QueryExecutorError (List Title)) : String :=
  make_header_content header_template_name task_id result ++
    match result with
    | .ok ls =>
      if ls.length ≤ 0 then of.empty
      else
        let list_size := ls.length
        let item_str := String.intercalate
          (substitute_str_template of.success.between list_size)
          ((List.range ls.length).zip ls |>.map (fun p =>
            substitute_str_template_with_title fullPretty namespaceName
              of.success.item p.2 (p.1 + 1) list_size))
        substitute_str_template of.success.before list_size ++ item_str ++
          substitute_str_template of.success.after list_size
    | .error _ => of.failure

/-- The `action=edit` parameter map built by the edit branch of
`PageWriter::start` (`md5hash` abstracts the external MD5 primitive used by
`PageWriter::get_md5`, `csrf` the gateway's current CSRF token). -/
def buildEditParams (md5hash : String → String) (csrf : String)
    (of : OutputFormat) (content summary : String) : List (String × String) :=
  [("action", "edit"), ("title", of.target), ("text", content),
   ("summary", summary), ("md5", md5hash content), ("nocreate", "1"),
   ("token", csrf)]

/-! ## Lock usage of the routines (spec §5, coarse coordination lock)

Rust drop semantics: in an expression statement, temporaries — including the
`MutexGuard` produced by `.lock().await` — are dropped at the end of that
statement.  Each of the three request sites below executes the statement
`API_SERVICE.get_lock().lock().await;` **without binding the guard**, so the
guard is dropped (the lock released) before the following request statement
runs.  The event traces below transcribe those blocks
(`src/routine/pagewriter.rs` lines 138–141 and 191–194,
`src/routine/queryexecutor.rs` lines 36–39) under that rule. -/

inductive ApiEvent where
  /-- the coarse lock is acquired (`get_lock().lock().await` resolves). -/
  | lockAcquire
  /-- the coarse lock is released (the `MutexGuard` is dropped). -/
  | lockRelease
  /-- a batch of remote API requests is issued. -/
  | request (description : String)
deriving DecidableEq

/-- `PageWriter::start`, guardrail read:
`{ API_SERVICE.get_lock().lock().await; API_SERVICE.get(&params).await }`. -/
def writerGuardrailEvents : List ApiEvent :=
  [.lockAcquire, .lockRelease, .request ("get action=query prop=info")]

/-- `PageWriter::start`, edit submission:
`{ API_SERVICE.get_lock().lock().await; API_SERVICE.post_edit(&params).await }`. -/
def writerEditEvents : List ApiEvent :=
  [.lockAcquire, .lockRelease, .request ("post_edit action=edit")]

/-- `QueryExecutor::execute`, evaluation:
`{ API_SERVICE.get_lock().lock().await; tokio::time::timeout(..., solve_api(...)).await }`. -/
def executorSolveEvents : List ApiEvent :=
  [.lockAcquire, .lockRelease, .request ("solve_api remote queries")]

/-- The full trace of one edit iteration of `PageWriter::start` (guardrail
read, then — via the query executor — the evaluation, then the edit). -/
def writerIterationEvents : List ApiEvent :=
  writerGuardrailEvents ++ executorSolveEvents ++ writerEditEvents

/-- Does some `request` event of the trace occur while the lock is *not*
held (lock depth zero)? -/
def someRequestOutsideLock : List ApiEvent → Nat → Bool
  | [], _ => false
  | .lockAcquire :: rest, d => someRequestOutsideLock rest (d + 1)
  | .lockRelease :: rest, d => someRequestOutsideLock rest (d - 1)
  | .request _ :: rest, d =>
    if d = 0 then true else someRequestOutsideLock rest d

/-- Are *all* `request` events of the trace issued while the lock is held? -/
def allRequestsUnderLock (evs : List ApiEvent) : Bool :=
  !someRequestOutsideLock evs 0

/-! ## The in-tree parser revision with negative-namespace rejection -/

/-- Modelled from the spec: the in-tree parser revision's
`construct_constraints_from_vec` (`src/src/parser/optim.rs`) is absent from
the corpus; per the comment `rejects if ns has some negative number` at its
call site (`src/parser/convert.rs`, `Expr::Constrained` arm) and spec §7
(*Semantic — … negative namespace rejection*), it additionally rejects, with a
`Semantic` error, any constructed constraint whose namespace set contains a
negative namespace identifier. -/
def construct_constraints_checked (orig : List Constraint) :
    Except PLBotParserError SetConstraint := do
  let sc ← construct_constraints_from_vec orig
  match sc.ns with
  | some s =>
    if (s.filter (fun n => n < 0)).Nonempty then
      .error (.Semantic ("negative namespace"))
    else .ok sc
  | none => .ok sc

/-- `ir_helper` of the in-tree parser revision: identical to `irNode` except
that constraint construction performs the negative-namespace rejection
(see `construct_constraints_checked`). -/
def irNodeChecked : Expr → Nat → Except PLBotParserError (List Instruction × Nat)
  | .Page l, reg => .ok ([.Set reg l SetConstraint.new], reg)
  | .Unary op c, reg => do
    let (insts, d) ← irNodeChecked c reg
    let instruct : Instruction :=
      match op with
      | .Link => .Link (d + 1) d SetConstraint.new
      | .LinkTo => .LinkTo (d + 1) d SetConstraint.new
      | .EmbeddedIn => .EmbeddedIn (d + 1) d SetConstraint.new
      | .InCategory => .InCat (d + 1) d SetConstraint.new
      | .Toggle => .Toggle (d + 1) d
      | .Pfx => .Pfx (d + 1) d SetConstraint.new
    .ok (insts ++ [instruct], d + 1)
  | .Binary l op r, reg => do
    let (lop, left_dest) ← irNodeChecked l reg
    let (rop, right_dest) ← irNodeChecked r (left_dest + 1)
    let instruct : Instruction :=
      match op with
      | .And => .And (right_dest + 1) left_dest right_dest
      | .Or => .Or (right_dest + 1) left_dest right_dest
      | .Exclude => .Exclude (right_dest + 1) left_dest right_dest
      | .Xor => .Xor (right_dest + 1) left_dest right_dest
    .ok (lop ++ rop ++ [instruct], right_dest + 1)
  | .Constrained c cons, reg => do
    let (insts, d) ← irNodeChecked c reg
    let constraint_struct ← construct_constraints_checked cons
    let insts' ← applyConstraint (insts.length + 1) insts [(d, constraint_struct)]
    .ok (insts', d)

/-- `parse` of the in-tree parser revision (`src/parser/mod.rs`), with the
negative-namespace rejection of its `construct_constraints_from_vec`. -/
def parseChecked (ast : Expr) : Except PLBotParserError (List Instruction × Nat) := do
  let (ir_ls, ir_fin) ← irNodeChecked ast 0
  let ir_ls := remove_redundent_talk ir_ls
  let ir_ls := remove_empty_ns ir_ls
  let ir_ls := remove_nop ir_ls
  .ok (ir_ls, ir_fin)

/-- Does the expression carry (at some `Constrained` node) a constraint whose
constructed namespace set contains a negative namespace identifier? -/
def hasNegativeNsConstraint : Expr → Bool
  | .Page _ => false
  | .Unary _ e => hasNegativeNsConstraint e
  | .Binary l _ r => hasNegativeNsConstraint l || hasNegativeNsConstraint r
  | .Constrained e cs =>
    (match construct_constraints_from_vec cs with
     | .ok sc =>
       match sc.ns with
       | some s => decide (s.filter (fun n => n < 0)).Nonempty
       | none => false
     | .error _ => false) || hasNegativeNsConstraint e

/-! ## Shapes: the register skeleton of a program

The compiler invariants (spec §3, I1–I3; spec §8, universal invariant 1)
depend only on each instruction's kind-arity, destination and operand
registers; constraint merging rewrites instructions without changing any of
those.  `Shape` records exactly that skeleton. -/

inductive Shape where
  | prim (dest : Nat)
  | un (dest op : Nat)
  | bin (dest op1 op2 : Nat)
deriving DecidableEq

/-- The skeleton of an instruction: `Set` is the primitive, the four set
operations are binary, everything else (including `Nop`) is unary. -/
def shapeOf : Instruction → Shape
  | .And d o1 o2 | .Or d o1 o2 | .Exclude d o1 o2 | .Xor d o1 o2 => .bin d o1 o2
  | .Link d o _ | .LinkTo d o _ | .EmbeddedIn d o _ | .InCat d o _
  | .Toggle d o | .Pfx d o _ | .Nop d o => .un d o
  | .Set d _ _ => .prim d

def Shape.dest : Shape → Nat
  | .prim d => d
  | .un d _ => d
  | .bin d _ _ => d

def Shape.ops : Shape → List Nat
  | .prim _ => []
  | .un _ o => [o]
  | .bin _ o1 o2 => [o1, o2]

/-- The operand registers of an instruction. -/
def opsOf (i : Instruction) : List Nat := (shapeOf i).ops

/-- All operand registers of a program, in order. -/
def allOps (l : List Instruction) : List Nat := (l.map opsOf).flatten

theorem get_dest_eq_shape_dest (i : Instruction) : i.get_dest = (shapeOf i).dest := by
  cases i <;> rfl

theorem map_set_congr {α β : Type} (f : α → β) {l : List α} {n : Nat} {a b : α}
    (h : l[n]? = some b) (hf : f a = f b) : (l.set n a).map f = l.map f := by
  induction l generalizing n with
  | nil => simp at h
  | cons x xs ih =>
    cases n with
    | zero =>
      simp only [List.getElem?_cons_zero, Option.some.injEq] at h
      subst h
      simp [hf]
    | succ n =>
      simp only [List.getElem?_cons_succ] at h
      simp only [List.set_cons_succ, List.map_cons]
      rw [ih h]

/-- Constraint propagation (`ir_helper`'s `Expr::Constrained` arm) never
changes the skeleton of the program: it merges constraint fields into
instructions in place in `inst`. -/
theorem applyConstraint_shapes : ∀ (fuel : Nat) (inst : List Instruction)
    (st : List (Nat × SetConstraint)) (inst' : List Instruction),
    applyConstraint fuel inst st = .ok inst' → inst'.map shapeOf = inst.map shapeOf := by
  intro fuel
  induction fuel with
  | zero =>
    intro inst st inst' h
    cases st with
    | nil => cases h; rfl
    | cons head rest => cases h
  | succ fuel ih =>
    intro inst st inst' h
    cases st with
    | nil => cases h; rfl
    | cons head rest =>
      obtain ⟨target, con⟩ := head
      simp only [applyConstraint] at h
      split at h
      · cases h
      · rename_i idx hfd
        split at h
        · cases h
        · rename_i i hins
          split at h
          case _ d o1 o2 => exact ih _ _ _ h
          case _ d o1 o2 => exact ih _ _ _ h
          case _ d o1 o2 => exact ih _ _ _ h
          case _ d o1 o2 => exact ih _ _ _ h
          case _ d o cs =>
            -- Link
            split at h
            · cases h
            · split at h
              · cases h
              · cases hm : merge_constraints cs con with
                | error e => rw [hm] at h; simp only [bind, Except.bind] at h; cases h
                | ok nc =>
                  rw [hm] at h
                  simp only [bind, Except.bind] at h
                  rw [ih _ _ _ h]
                  exact map_set_congr shapeOf hins rfl
          case _ d o cs =>
            -- LinkTo
            split at h
            · cases h
            · cases hm : merge_constraints cs con with
              | error e => rw [hm] at h; simp only [bind, Except.bind] at h; cases h
              | ok nc =>
                rw [hm] at h
                simp only [bind, Except.bind] at h
                rw [ih _ _ _ h]
                exact map_set_congr shapeOf hins rfl
          case _ d o cs =>
            -- EmbeddedIn
            split at h
            · cases h
            · cases hm : merge_constraints cs con with
              | error e => rw [hm] at h; simp only [bind, Except.bind] at h; cases h
              | ok nc =>
                rw [hm] at h
                simp only [bind, Except.bind] at h
                rw [ih _ _ _ h]
                exact map_set_congr shapeOf hins rfl
          case _ d o cs =>
            -- InCat
            split at h
            · cases h
            · split at h
              · cases h
              · cases hm : merge_constraints cs con with
                | error e => rw [hm] at h; simp only [bind, Except.bind] at h; cases h
                | ok nc =>
                  rw [hm] at h
                  simp only [bind, Except.bind] at h
                  rw [ih _ _ _ h]
                  exact map_set_congr shapeOf hins rfl
          case _ d o =>
            -- Toggle
            split at h
            · exact ih _ _ _ h
            · exact ih _ _ _ h
          case _ d o cs =>
            -- Pfx
            split at h
            · cases h
            · cases hm : merge_constraints cs con with
              | error e => rw [hm] at h; simp only [bind, Except.bind] at h; cases h
              | ok nc =>
                rw [hm] at h
                simp only [bind, Except.bind] at h
                rw [ih _ _ _ h]
                exact map_set_congr shapeOf hins rfl
          case _ d o =>
            -- Nop
            exact ih _ _ _ h
          case _ d titles cs =>
            -- Set
            split at h
            · cases h
            · cases hm : merge_constraints cs con with
              | error e => rw [hm] at h; simp only [bind, Except.bind] at h; cases h
              | ok nc =>
                rw [hm] at h
                simp only [bind, Except.bind] at h
                rw [ih _ _ _ h]
                exact map_set_congr shapeOf hins rfl

/-- Well-formedness of the skeleton at position `i` of a program whose
register ids start at `r` (spec §3: register ids are dense, assigned in
evaluation order): the destination is `r + i`; a unary instruction consumes
the register immediately below its destination; a binary instruction consumes
the register immediately below as its right operand and some earlier register
(at least `r`) as its left operand. -/
def ShapeOK (r : Nat) (i : Nat) : Shape → Prop
  | .prim d => d = r + i
  | .un d o => d = r + i ∧ o + 1 = r + i ∧ 1 ≤ i
  | .bin d o1 o2 => d = r + i ∧ o2 + 1 = r + i ∧ r ≤ o1 ∧ o1 + 1 < r + i

theorem shapeOK_prim {r : Nat} {i : Nat} {d : Nat} :
    ShapeOK r i (.prim d) ↔ d = r + i := Iff.rfl

theorem shapeOK_un {r : Nat} {i : Nat} {d o : Nat} :
    ShapeOK r i (.un d o) ↔ d = r + i ∧ o + 1 = r + i ∧ 1 ≤ i := Iff.rfl

theorem shapeOK_bin {r : Nat} {i : Nat} {d o1 o2 : Nat} :
    ShapeOK r i (.bin d o1 o2) ↔
      d = r + i ∧ o2 + 1 = r + i ∧ r ≤ o1 ∧ o1 + 1 < r + i := Iff.rfl

/-- Well-formed program skeleton starting at register `r`: positionwise
`ShapeOK`, and pairwise-distinct operand registers (each register is consumed
by at most one instruction: the IR of an expression is a tree). -/
def WF (r : Nat) (l : List Instruction) : Prop :=
  (∀ (i : Nat) (inst : Instruction), l[i]? = some inst → ShapeOK r i (shapeOf inst)) ∧
  (allOps l).Nodup

theorem allOps_append (l₁ l₂ : List Instruction) :
    allOps (l₁ ++ l₂) = allOps l₁ ++ allOps l₂ := by
  simp [allOps]

theorem allOps_eq_of_shapes {l l' : List Instruction}
    (h : l.map shapeOf = l'.map shapeOf) : allOps l = allOps l' := by
  have : l.map opsOf = l'.map opsOf := by
    have h1 : (l.map shapeOf).map Shape.ops = (l'.map shapeOf).map Shape.ops := by rw [h]
    simpa [List.map_map, Function.comp, opsOf] using h1
  simp [allOps, this]

theorem wf_of_shapes_eq {r : Nat} {l l' : List Instruction}
    (h : l.map shapeOf = l'.map shapeOf) (hw : WF r l) : WF r l' := by
  obtain ⟨hpos, hnd⟩ := hw
  refine ⟨fun i inst hi => ?_, by rwa [allOps_eq_of_shapes h.symm]⟩
  have hmap : (l.map shapeOf)[i]? = (l'.map shapeOf)[i]? := by rw [h]
  rw [List.getElem?_map, List.getElem?_map, hi] at hmap
  cases hl : l[i]? with
  | none => rw [hl] at hmap; simp at hmap
  | some inst0 =>
    rw [hl] at hmap
    simp only [Option.map_some'] at hmap
    have := hpos i inst0 hl
    exact (Option.some.inj hmap) ▸ this

theorem wf_ops_bound {r : Nat} {l : List Instruction} (h : WF r l) :
    ∀ (i : Nat) (inst : Instruction), l[i]? = some inst →
      ∀ o ∈ opsOf inst, r ≤ o ∧ o < r + i := by
  intro i inst hi o ho
  have hs := h.1 i inst hi
  unfold opsOf at ho
  cases hsh : shapeOf inst with
  | prim d => rw [hsh] at ho; simp [Shape.ops] at ho
  | un d op =>
    rw [hsh] at ho hs
    rw [shapeOK_un] at hs
    simp only [Shape.ops, List.mem_singleton] at ho
    subst ho
    obtain ⟨_, h2, h3⟩ := hs
    omega
  | bin d o1 o2 =>
    rw [hsh] at ho hs
    rw [shapeOK_bin] at hs
    obtain ⟨_, h2, h3, h4⟩ := hs
    simp only [Shape.ops, List.mem_cons, List.mem_singleton] at ho
    rcases ho with rfl | rfl | hfalse
    · omega
    · omega
    · simp at hfalse

theorem mem_allOps {l : List Instruction} {o : Nat} :
    o ∈ allOps l ↔ ∃ (i : Nat) (inst : Instruction), l[i]? = some inst ∧ o ∈ opsOf inst := by
  constructor
  · intro h
    simp only [allOps, List.mem_flatten, List.mem_map] at h
    obtain ⟨L, ⟨inst, hmem, rfl⟩, ho⟩ := h
    obtain ⟨i, hi⟩ := List.mem_iff_getElem?.1 hmem
    exact ⟨i, inst, hi, ho⟩
  · rintro ⟨i, inst, hi, ho⟩
    simp only [allOps, List.mem_flatten, List.mem_map]
    exact ⟨opsOf inst, ⟨inst, List.getElem?_mem hi, rfl⟩, ho⟩

theorem allOps_bound {r : Nat} {l : List Instruction} (h : WF r l) :
    ∀ o ∈ allOps l, r ≤ o ∧ o + 1 < r + l.length := by
  intro o ho
  obtain ⟨i, inst, hi, hmem⟩ := mem_allOps.1 ho
  have hb := wf_ops_bound h i inst hi o hmem
  have hlen : i < l.length := by
    by_contra hc
    rw [List.getElem?_eq_none (by omega)] at hi
    cases hi
  omega

theorem shapeOK_shift {r k j : Nat} {s : Shape}
    (h : ShapeOK (r + k) j s) : ShapeOK r (k + j) s := by
  cases s with
  | prim d => rw [shapeOK_prim] at h ⊢; omega
  | un d o => rw [shapeOK_un] at h ⊢; omega
  | bin d o1 o2 => rw [shapeOK_bin] at h ⊢; omega

/-- `ir_helper` emits a well-formed skeleton: destinations are the
consecutive registers `reg, reg+1, …` (so the sequence is sorted by `dest`),
every operand register is the destination of an earlier instruction, operand
registers are pairwise distinct, and the returned final register is the
destination of the last emitted instruction. -/
theorem irNode_wf : ∀ (e : Expr) (reg : Nat) (l : List Instruction) (d : Nat),
    irNode e reg = .ok (l, d) → WF reg l ∧ d + 1 = reg + l.length ∧ 0 < l.length := by
  intro e
  induction e with
  | Page titles =>
    intro reg l d h
    simp only [irNode, Except.ok.injEq, Prod.mk.injEq] at h
    obtain ⟨rfl, rfl⟩ := h
    refine ⟨⟨fun i inst hi => ?_, by simp [allOps, opsOf, shapeOf, Shape.ops]⟩, by simp, by simp⟩
    cases i with
    | zero =>
      simp only [List.getElem?_cons_zero, Option.some.injEq] at hi
      subst hi
      rw [show shapeOf (.Set reg titles SetConstraint.new) = .prim reg from rfl, shapeOK_prim]
      omega
    | succ n => simp at hi
  | Unary op c ih =>
    intro reg l d h
    simp only [irNode] at h
    cases hc : irNode c reg with
    | error e0 => rw [hc] at h; simp only [bind, Except.bind] at h; cases h
    | ok p =>
      obtain ⟨l₀, d₀⟩ := p
      rw [hc] at h
      simp only [bind, Except.bind, Except.ok.injEq, Prod.mk.injEq] at h
      obtain ⟨rfl, rfl⟩ := h
      obtain ⟨hwf, hlen, hpos⟩ := ih reg l₀ d₀ hc
      set instr : Instruction :=
        (match op with
        | .Link => .Link (d₀ + 1) d₀ SetConstraint.new
        | .LinkTo => .LinkTo (d₀ + 1) d₀ SetConstraint.new
        | .EmbeddedIn => .EmbeddedIn (d₀ + 1) d₀ SetConstraint.new
        | .InCategory => .InCat (d₀ + 1) d₀ SetConstraint.new
        | .Toggle => .Toggle (d₀ + 1) d₀
        | .Pfx => .Pfx (d₀ + 1) d₀ SetConstraint.new) with hinstr
      have hshape : shapeOf instr = .un (d₀ + 1) d₀ := by
        rw [hinstr]; cases op <;> rfl
      have hops : opsOf instr = [d₀] := by
        rw [opsOf, hshape]; rfl
      refine ⟨⟨fun i inst hi => ?_, ?_⟩, ?_, ?_⟩
      · rcases Nat.lt_trichotomy i l₀.length with hlt | heq | hgt
        · rw [List.getElem?_append_left hlt] at hi
          exact hwf.1 i inst hi
        · subst heq
          rw [List.getElem?_append_right (le_refl _), Nat.sub_self] at hi
          simp only [List.getElem?_cons_zero, Option.some.injEq] at hi
          subst hi
          rw [hshape, shapeOK_un]
          refine ⟨by omega, by omega, by omega⟩
        · rw [List.getElem?_eq_none (by simp; omega)] at hi
          cases hi
      · rw [allOps_append]
        have : allOps [instr] = [d₀] := by simp [allOps, hops]
        rw [this]
        apply List.Nodup.append hwf.2 (List.nodup_singleton _)
        intro x hx hx'
        simp only [List.mem_singleton] at hx'
        subst hx'
        have := allOps_bound hwf x hx
        omega
      · simp only [List.length_append, List.length_cons, List.length_nil]
        omega
      · simp
  | Binary lft bop rgt ihl ihr =>
    intro reg l d h
    simp only [irNode] at h
    cases hc1 : irNode lft reg with
    | error e0 => rw [hc1] at h; simp only [bind, Except.bind] at h; cases h
    | ok p1 =>
      obtain ⟨l₁, d₁⟩ := p1
      rw [hc1] at h
      simp only [bind, Except.bind] at h
      cases hc2 : irNode rgt (d₁ + 1) with
      | error e0 =>
        rw [hc2] at h; cases h
      | ok p2 =>
        obtain ⟨l₂, d₂⟩ := p2
        rw [hc2] at h
        simp only [Except.ok.injEq, Prod.mk.injEq] at h
        obtain ⟨rfl, rfl⟩ := h
        obtain ⟨hwf1, hlen1, hpos1⟩ := ihl reg l₁ d₁ hc1
        obtain ⟨hwf2, hlen2, hpos2⟩ := ihr (d₁ + 1) l₂ d₂ hc2
        set instr : Instruction :=
          (match bop with
          | .And => .And (d₂ + 1) d₁ d₂
          | .Or => .Or (d₂ + 1) d₁ d₂
          | .Exclude => .Exclude (d₂ + 1) d₁ d₂
          | .Xor => .Xor (d₂ + 1) d₁ d₂) with hinstr
        have hshape : shapeOf instr = .bin (d₂ + 1) d₁ d₂ := by
          rw [hinstr]; cases bop <;> rfl
        have hops : opsOf instr = [d₁, d₂] := by
          rw [opsOf, hshape]; rfl
        refine ⟨⟨fun i inst hi => ?_, ?_⟩, ?_, ?_⟩
        · rcases Nat.lt_trichotomy i l₁.length with hlt | heq | hgt
          · rw [List.append_assoc, List.getElem?_append_left hlt] at hi
            exact hwf1.1 i inst hi
          · subst heq
            rw [List.append_assoc,
              List.getElem?_append_right (le_refl _), Nat.sub_self] at hi
            rcases Nat.lt_trichotomy 0 l₂.length with h2 | h2 | h2
            · rw [List.getElem?_append_left h2] at hi
              have := hwf2.1 0 inst hi
              have := shapeOK_shift (k := l₁.length) (j := 0)
                (by rw [show reg + l₁.length = d₁ + 1 by omega]; exact this)
              simpa using this
            · omega
            · omega
          · -- i > l₁.length
            rw [List.append_assoc, List.getElem?_append_right (by omega)] at hi
            rcases Nat.lt_trichotomy (i - l₁.length) l₂.length with h2 | h2 | h2
            · rw [List.getElem?_append_left h2] at hi
              have hx := hwf2.1 (i - l₁.length) inst hi
              have := shapeOK_shift (k := l₁.length) (j := i - l₁.length)
                (by rw [show reg + l₁.length = d₁ + 1 by omega]; exact hx)
              rw [show l₁.length + (i - l₁.length) = i by omega] at this
              exact this
            · rw [List.getElem?_append_right (by omega), h2, Nat.sub_self] at hi
              simp only [List.getElem?_cons_zero, Option.some.injEq] at hi
              subst hi
              rw [hshape, shapeOK_bin]
              refine ⟨by omega, by omega, by omega, by omega⟩
            · rw [List.getElem?_eq_none (by simp; omega)] at hi
              cases hi
        · rw [List.append_assoc, allOps_append, allOps_append]
          have hsing : allOps [instr] = [d₁, d₂] := by simp [allOps, hops]
          rw [hsing]
          have hb1 := allOps_bound hwf1
          have hb2 := allOps_bound hwf2
          refine List.Nodup.append hwf1.2 (List.Nodup.append hwf2.2 ?_ ?_) ?_
          · refine List.nodup_cons.2 ⟨?_, List.nodup_singleton _⟩
            simp only [List.mem_singleton]
            omega
          · intro x hx hx'
            have := hb2 x hx
            simp only [List.mem_cons, List.not_mem_nil, or_false] at hx'
            rcases hx' with rfl | rfl <;> omega
          · intro x hx hx'
            have := hb1 x hx
            simp only [List.mem_append, List.mem_cons, List.not_mem_nil, or_false] at hx'
            rcases hx' with hx2 | rfl | rfl
            · have := hb2 x hx2
              omega
            · omega
            · omega
        · simp only [List.length_append, List.length_cons, List.length_nil]
          omega
        · simp
  | Constrained c cons ih =>
    intro reg l d h
    simp only [irNode] at h
    cases hc : irNode c reg with
    | error e0 => rw [hc] at h; simp only [bind, Except.bind] at h; cases h
    | ok p =>
      obtain ⟨l₀, d₀⟩ := p
      rw [hc] at h
      simp only [bind, Except.bind] at h
      split at h
      · cases h
      · rename_i sc hcs
        split at h
        · cases h
        · rename_i l' hap
          simp only [Except.ok.injEq, Prod.mk.injEq] at h
          obtain ⟨hl, hd⟩ := h
          obtain ⟨hwf, hlen, hpos⟩ := ih reg l₀ d₀ hc
          have hsh := applyConstraint_shapes _ _ _ _ hap
          have hlen2 : l'.length = l₀.length := by
            simpa using congrArg List.length hsh
          subst hl
          subst hd
          exact ⟨wf_of_shapes_eq hsh.symm hwf, by omega, by omega⟩

/-- The double-toggle pass only replaces `Toggle` instructions by `Nop`s with
the same `dest` and `op`: the skeleton is unchanged. -/
theorem talkLoop_shapes : ∀ (n : Nat) (ir : List Instruction) (idx : Nat),
    (talkLoop n ir idx).map shapeOf = ir.map shapeOf := by
  intro n
  induction n with
  | zero => intro ir idx; rfl
  | succ n ih =>
    intro ir idx
    rw [talkLoop]
    split
    · rename_i h
      refine (ih _ _).trans ?_
      split
      · rename_i dest op hx
        split
        · split
          · rename_i sfd idx2 hfd sj dest2 op2 hx2
            have hi1 : ir[idx]? = some (.Toggle dest op) := by
              rw [List.getElem?_eq_getElem h, hx]
            have hs1 : (ir.set idx (.Nop dest op)).map shapeOf = ir.map shapeOf :=
              map_set_congr shapeOf hi1 rfl
            refine Eq.trans ?_ hs1
            rcases eq_or_ne idx2 idx with rfl | hne
            · have hj : dest2 = dest ∧ op2 = op := by
                rw [List.getElem?_eq_getElem h, hx] at hx2
                cases hx2
                exact ⟨rfl, rfl⟩
              rw [hj.1, hj.2]
              have hi2 : (ir.set idx2 (Instruction.Nop dest op))[idx2]? =
                  some (.Nop dest op) :=
                List.getElem?_set_eq_of_lt _ (by simpa using h)
              exact map_set_congr shapeOf hi2 rfl
            · have hi2 : (ir.set idx (Instruction.Nop dest op))[idx2]? =
                  some (.Toggle dest2 op2) := by
                rw [List.getElem?_set_ne (fun hc => hne hc.symm), hx2]
              exact map_set_congr shapeOf hi2 rfl
          · rfl
        · rfl
      · rfl
    · rfl

theorem remove_redundent_talk_shapes (ir : List Instruction) :
    (remove_redundent_talk ir).map shapeOf = ir.map shapeOf :=
  talkLoop_shapes _ _ _

/-- The empty-namespace subtree walk only replaces unary instructions by
`Nop`s with the same `dest` and `op` and `Set` instructions by empty `Set`s
with the same `dest`: the skeleton is unchanged. -/
theorem emptyNsStack_shapes : ∀ (fuel : Nat) (ir : List Instruction) (stack : List Nat),
    (emptyNsStack fuel ir stack).map shapeOf = ir.map shapeOf := by
  intro fuel
  induction fuel with
  | zero =>
    intro ir stack
    cases stack <;> rfl
  | succ fuel ih =>
    intro ir stack
    cases stack with
    | nil => rfl
    | cons opdest rest =>
      rw [emptyNsStack]
      split
      · exact ih _ _
      · split
        all_goals try exact ih _ _
        all_goals rename_i heq
        all_goals exact (ih _ _).trans (map_set_congr shapeOf heq rfl)

theorem emptyNsLoop_shapes : ∀ (n : Nat) (ir : List Instruction) (idx : Nat),
    (emptyNsLoop n ir idx).map shapeOf = ir.map shapeOf := by
  intro n
  induction n with
  | zero => intro ir idx; rfl
  | succ n ih =>
    intro ir idx
    rw [emptyNsLoop]
    split
    · rename_i h
      refine (ih _ _).trans ?_
      split
      · exact emptyNsStack_shapes _ _ _
      · rfl
    · rfl

theorem remove_empty_ns_shapes (ir : List Instruction) :
    (remove_empty_ns ir).map shapeOf = ir.map shapeOf :=
  emptyNsLoop_shapes _ _ _

/-! ## Invariants of the Nop-elision pass -/

/-- Destinations strictly increase along the program (invariant I2 plus the
distinctness that makes `binary_search` by `dest` well-defined). -/
def SortedDests (l : List Instruction) : Prop :=
  l.Pairwise (fun a b => a.get_dest < b.get_dest)

/-- Adjacency discipline: a unary (or `Nop`) instruction consumes exactly its
immediate predecessor's destination, and so does a binary instruction's right
operand.  On the contiguous skeleton emitted by `ir_helper` this is just
`op = dest - 1`; it is the part of I1 the Nop-elision pass relies on and
re-establishes. -/
def opsAdj (a b : Instruction) : Prop :=
  match shapeOf b with
  | .prim _ => True
  | .un _ o => o = a.get_dest
  | .bin _ _ o2 => o2 = a.get_dest

/-- Every binary instruction's left operand is strictly below its right one
and is produced somewhere in the program. -/
def BinOpsOK (l : List Instruction) : Prop :=
  ∀ inst ∈ l, ∀ d o1 o2, shapeOf inst = .bin d o1 o2 →
    o1 < o2 ∧ o1 ∈ l.map Instruction.get_dest

/-- The first instruction is a primitive (`Set`). -/
def HeadPrim (l : List Instruction) : Prop :=
  ∀ inst, l.head? = some inst → ∃ d, shapeOf inst = .prim d

/-- No `Nop` among the first `idx` instructions (the prefix the outer loop of
`remove_nop` has already scanned). -/
def NoNopBefore (l : List Instruction) (idx : Nat) : Prop :=
  ∀ (i : Nat) (inst : Instruction), i < idx → l[i]? = some inst → inst.is_nop = false

/-- The loop invariant of `remove_nop`. -/
structure NInv (l : List Instruction) (idx : Nat) : Prop where
  sorted : SortedDests l
  chain : l.Chain' opsAdj
  headPrim : HeadPrim l
  binOps : BinOpsOK l
  nodupOps : (allOps l).Nodup
  prefixNoNop : NoNopBefore l idx

theorem get_dest_set_dest (i : Instruction) (d : Nat) :
    (i.set_dest d).get_dest = d := by
  cases i <;> rfl

theorem is_nop_set_dest (i : Instruction) (d : Nat) :
    (i.set_dest d).is_nop = i.is_nop := by
  cases i <;> rfl

/-- `set_dest` keeps the constructor and the operand registers; only the
`dest` component of the shape changes. -/
theorem shapeOf_set_dest (i : Instruction) (d : Nat) :
    shapeOf (i.set_dest d) =
      (match shapeOf i with
       | .prim _ => .prim d
       | .un _ o => .un d o
       | .bin _ o1 o2 => .bin d o1 o2) := by
  cases i <;> rfl

theorem opsOf_set_dest (i : Instruction) (d : Nat) :
    opsOf (i.set_dest d) = opsOf i := by
  cases i <;> rfl

theorem opsAdj_set_dest_right (a b : Instruction) (d : Nat) :
    opsAdj a (b.set_dest d) ↔ opsAdj a b := by
  cases b <;> simp [opsAdj, shapeOf, Instruction.set_dest]

theorem opsAdj_set_dest_left (a b : Instruction) (d : Nat)
    (hd : a.get_dest = d) : opsAdj (a.set_dest d) b ↔ opsAdj a b := by
  have : (a.set_dest d).get_dest = a.get_dest := by rw [get_dest_set_dest, hd]
  cases b <;> simp [opsAdj, shapeOf, this]

/-- `findDest` on a dest-sorted list: the producer of a given register is
found exactly at its position. -/
theorem findDest_eq_some {l : List Instruction} {k : Nat} {target : Nat}
    {p : Instruction} (hp : l[k]? = some p) (hd : p.get_dest = target)
    (hbefore : ∀ (j : Nat) (b : Instruction), j < k → l[j]? = some b →
      b.get_dest ≠ target) :
    findDest l target = some k := by
  have hk : k < l.length := by
    by_contra hc
    rw [List.getElem?_eq_none (by omega)] at hp
    cases hp
  rw [findDest, List.findIdx?_eq_some_iff_getElem]
  refine ⟨hk, ?_, ?_⟩
  · simp only [decide_eq_true_eq]
    rw [List.getElem?_eq_getElem hk] at hp
    cases hp
    exact hd
  · intro j hj
    simp only [decide_eq_true_eq]
    have hjl : j < l.length := by omega
    exact hbefore j _ hj (List.getElem?_eq_getElem hjl)

theorem findDest_eq_none {l : List Instruction} {target : Nat}
    (h : ∀ inst ∈ l, inst.get_dest ≠ target) :
    findDest l target = none := by
  rw [findDest, List.findIdx?_eq_none_iff]
  intro x hx
  simpa using h x hx

theorem findDest_lt_length {l : List Instruction} {target : Nat} {k : Nat}
    (h : findDest l target = some k) : k < l.length :=
  (List.findIdx?_eq_some_iff_getElem.1 h).1

theorem sorted_dest_lt {l : List Instruction} (hs : SortedDests l)
    {i j : Nat} {a b : Instruction} (hij : i < j)
    (ha : l[i]? = some a) (hb : l[j]? = some b) :
    a.get_dest < b.get_dest := by
  have hjl : j < l.length := by
    by_contra hc
    rw [List.getElem?_eq_none (by omega)] at hb
    cases hb
  have hil : i < l.length := by omega
  rw [SortedDests, List.pairwise_iff_getElem] at hs
  have := hs i j hil hjl hij
  rw [List.getElem?_eq_getElem hil] at ha
  rw [List.getElem?_eq_getElem hjl] at hb
  cases ha
  cases hb
  exact this

theorem chain_adj_getElem {l : List Instruction} (hc : l.Chain' opsAdj)
    {i : Nat} {a b : Instruction}
    (ha : l[i]? = some a) (hb : l[i + 1]? = some b) : opsAdj a b := by
  have hbl : i + 1 < l.length := by
    by_contra hcc
    rw [List.getElem?_eq_none (by omega)] at hb
    cases hb
  have hal : i < l.length := by omega
  rw [List.chain'_iff_get] at hc
  have hx := hc i (by omega)
  rw [List.get_eq_getElem, List.get_eq_getElem] at hx
  rw [List.getElem?_eq_getElem hal] at ha
  rw [List.getElem?_eq_getElem hbl] at hb
  cases ha
  cases hb
  exact hx

/-- Splitting a list at two consecutive positions `idx - 1`, `idx`
(`1 ≤ idx < l.length`). -/
theorem decompose_two {l : List Instruction} {idx : Nat}
    (h1 : 1 ≤ idx) (h2 : idx < l.length) :
    l = l.take (idx - 1) ++ l.get ⟨idx - 1, by omega⟩ ::
      l.get ⟨idx, h2⟩ :: l.drop (idx + 1) ∧
    (l.take (idx - 1)).length = idx - 1 := by
  constructor
  · conv_lhs => rw [← List.take_append_drop (idx - 1) l]
    congr 1
    rw [List.drop_eq_getElem_cons (by omega)]
    congr 1
    rw [show idx - 1 + 1 = idx by omega, List.drop_eq_getElem_cons (by omega)]
    rfl
  · rw [List.length_take]
    omega

theorem modify_append_cons : ∀ (A : List Instruction)
    (f : Instruction → Instruction) (p : Instruction) (rest : List Instruction),
    (A ++ p :: rest).modify f A.length = A ++ f p :: rest
  | [], f, p, rest => rfl
  | a :: A, f, p, rest => by
    simp only [List.cons_append, List.length_cons]
    show a :: (A ++ p :: rest).modify f A.length = a :: (A ++ f p :: rest)
    rw [modify_append_cons A f p rest]

theorem eraseIdx_append_cons_cons : ∀ (A : List Instruction)
    (p q : Instruction) (rest : List Instruction),
    (A ++ p :: q :: rest).eraseIdx (A.length + 1) = A ++ p :: rest
  | [], p, q, rest => rfl
  | a :: A, p, q, rest => by
    simp only [List.cons_append, List.length_cons, List.eraseIdx_cons_succ]
    rw [eraseIdx_append_cons_cons A p q rest]

theorem allOps_cons (x : Instruction) (t : List Instruction) :
    allOps (x :: t) = opsOf x ++ allOps t := rfl

theorem opsAdj_congr_left {a a' : Instruction} (b : Instruction)
    (h : a.get_dest = a'.get_dest) : opsAdj a b ↔ opsAdj a' b := by
  cases b <;> simp [opsAdj, shapeOf, h]

theorem mem_opsOf_bin {inst : Instruction} {d o1 o2 : Nat}
    (h : shapeOf inst = .bin d o1 o2) : o1 ∈ opsOf inst := by
  rw [opsOf, h]
  simp [Shape.ops]

theorem mem_allOps_of_mem {l : List Instruction} {inst : Instruction}
    {o : Nat} (hmem : inst ∈ l) (ho : o ∈ opsOf inst) : o ∈ allOps l := by
  simp only [allOps, List.mem_flatten, List.mem_map]
  exact ⟨opsOf inst, ⟨inst, hmem, rfl⟩, ho⟩

/-- Contraction of one `Nop`: redirecting the predecessor's `dest` to the
`Nop`'s `dest` and removing the `Nop` preserves the loop invariant of
`remove_nop` (the `Nop` sits at position `A.length + 1`, its producer
immediately before it). -/
theorem ninv_after_contract {A B : List Instruction} {pred : Instruction}
    {dest op : Nat}
    (hinv : NInv (A ++ pred :: .Nop dest op :: B) (A.length + 1)) :
    NInv (A ++ pred.set_dest dest :: B) (A.length + 1) := by
  have hallops : allOps (A ++ pred :: Instruction.Nop dest op :: B) =
      allOps A ++ (opsOf pred ++ ([op] ++ allOps B)) := by
    rw [allOps_append, allOps_cons, allOps_cons]
    rfl
  have hnodup := hinv.nodupOps
  rw [hallops] at hnodup
  rw [List.nodup_append] at hnodup
  obtain ⟨hndA, hnd1, hdisj1⟩ := hnodup
  rw [List.nodup_append] at hnd1
  obtain ⟨hndP, hnd2, hdisj2⟩ := hnd1
  rw [List.nodup_append] at hnd2
  obtain ⟨_, hndB, hdisj3⟩ := hnd2
  -- `op` is consumed only by the removed `Nop`
  have hop_notin_A : op ∉ allOps A := fun hc =>
    hdisj1 hc (by simp)
  have hop_notin_P : op ∉ opsOf pred := fun hc =>
    hdisj2 hc (by simp)
  have hop_notin_B : op ∉ allOps B := fun hc =>
    hdisj3 (a := op) (by simp) hc
  -- sortedness facts
  have hs := hinv.sorted
  rw [SortedDests, List.pairwise_append] at hs
  obtain ⟨hsA, hsRest, hsCross⟩ := hs
  rw [List.pairwise_cons] at hsRest
  obtain ⟨hsPred, hsNB⟩ := hsRest
  rw [List.pairwise_cons] at hsNB
  obtain ⟨hsNop, hsB⟩ := hsNB
  -- chain facts
  have hc := hinv.chain
  rw [List.chain'_append] at hc
  obtain ⟨hcA, hcRest, hcLink⟩ := hc
  rw [List.chain'_cons] at hcRest
  obtain ⟨hcPN, hcNB⟩ := hcRest
  rw [List.chain'_cons'] at hcNB
  obtain ⟨hcNhead, hcB⟩ := hcNB
  refine ⟨?_, ?_, ?_, ?_, ?_, ?_⟩
  · -- sorted
    rw [SortedDests, List.pairwise_append]
    refine ⟨hsA, ?_, ?_⟩
    · rw [List.pairwise_cons]
      refine ⟨fun b hb => ?_, hsB⟩
      rw [get_dest_set_dest]
      simpa using hsNop b hb
    · intro a ha b hb
      rcases List.mem_cons.1 hb with rfl | hbB
      · rw [get_dest_set_dest]
        simpa using hsCross a ha (.Nop dest op) (by simp)
      · exact hsCross a ha b (by simp [hbB])
  · -- chain
    rw [List.chain'_append]
    refine ⟨hcA, ?_, ?_⟩
    · rw [List.chain'_cons']
      refine ⟨fun y hy => ?_, hcB⟩
      have := hcNhead y hy
      exact (opsAdj_congr_left y
        (by rw [get_dest_set_dest]; rfl)).2 this
    · intro x hx y hy
      simp only [List.head?_cons, Option.mem_def, Option.some.injEq] at hy
      subst hy
      have := hcLink x hx pred (by simp)
      exact (opsAdj_set_dest_right x pred dest).2 this
  · -- head is primitive
    intro inst hh
    cases A with
    | nil =>
      simp only [List.nil_append, List.head?_cons, Option.some.injEq] at hh
      subst hh
      obtain ⟨d0, hd0⟩ := hinv.headPrim pred (by simp)
      refine ⟨dest, ?_⟩
      rw [shapeOf_set_dest, hd0]
    | cons a A =>
      simp only [List.cons_append, List.head?_cons, Option.some.injEq] at hh
      subst hh
      exact hinv.headPrim a (by simp)
  · -- binary operands
    intro inst hmem d o1 o2 hsh
    have hmap_old : (A ++ pred :: Instruction.Nop dest op :: B).map
        Instruction.get_dest =
        A.map Instruction.get_dest ++ pred.get_dest :: dest ::
          B.map Instruction.get_dest := by
      simp [Instruction.get_dest]
    have hmap_new : (A ++ pred.set_dest dest :: B).map Instruction.get_dest =
        A.map Instruction.get_dest ++ dest :: B.map Instruction.get_dest := by
      simp [get_dest_set_dest]
    have hop_pred : op = pred.get_dest := by
      have := hcPN
      rw [opsAdj] at this
      simpa [shapeOf] using this
    rcases List.mem_append.1 hmem with hA | hPB
    · obtain ⟨h1, h2⟩ := hinv.binOps inst (by simp [hA]) d o1 o2 hsh
      refine ⟨h1, ?_⟩
      rw [hmap_old] at h2
      rw [hmap_new]
      have ho1ne : o1 ≠ op :=
        fun hc => hop_notin_A (hc ▸ mem_allOps_of_mem hA (mem_opsOf_bin hsh))
      simp only [List.mem_append, List.mem_cons] at h2 ⊢
      rcases h2 with h2 | h2 | h2 | h2
      · exact Or.inl h2
      · exact absurd (h2.trans hop_pred.symm) ho1ne
      · exact Or.inr (Or.inl h2)
      · exact Or.inr (Or.inr h2)
    · rcases List.mem_cons.1 hPB with rfl | hB
      · -- inst is the redirected predecessor
        rw [shapeOf_set_dest] at hsh
        cases hps : shapeOf pred with
        | prim d0 => rw [hps] at hsh; cases hsh
        | un d0 o0 => rw [hps] at hsh; cases hsh
        | bin d0 p1 p2 =>
        rw [hps] at hsh
        have hsh2 : Shape.bin dest p1 p2 = Shape.bin d o1 o2 := hsh
        have hd : dest = d ∧ p1 = o1 ∧ p2 = o2 := by
          cases hsh2; exact ⟨rfl, rfl, rfl⟩
        obtain ⟨hdd, hp1, hp2⟩ := hd
        obtain ⟨h1, h2⟩ := hinv.binOps pred (by simp) d0 p1 p2 hps
        rw [hp1, hp2] at h1
        rw [hp1] at h2
        refine ⟨h1, ?_⟩
        rw [hmap_old] at h2
        rw [hmap_new]
        have ho1ne : o1 ≠ op :=
          fun hc => hop_notin_P (hc ▸ (hp1 ▸ mem_opsOf_bin hps))
        simp only [List.mem_append, List.mem_cons] at h2 ⊢
        rcases h2 with h2 | h2 | h2 | h2
        · exact Or.inl h2
        · exact absurd (h2.trans hop_pred.symm) ho1ne
        · exact Or.inr (Or.inl h2)
        · exact Or.inr (Or.inr h2)
      · obtain ⟨h1, h2⟩ := hinv.binOps inst (by simp [hB]) d o1 o2 hsh
        refine ⟨h1, ?_⟩
        rw [hmap_old] at h2
        rw [hmap_new]
        have ho1ne : o1 ≠ op :=
          fun hc => hop_notin_B (hc ▸ mem_allOps_of_mem hB (mem_opsOf_bin hsh))
        simp only [List.mem_append, List.mem_cons] at h2 ⊢
        rcases h2 with h2 | h2 | h2 | h2
        · exact Or.inl h2
        · exact absurd (h2.trans hop_pred.symm) ho1ne
        · exact Or.inr (Or.inl h2)
        · exact Or.inr (Or.inr h2)
  · -- operand linearity
    have hallops_new : allOps (A ++ pred.set_dest dest :: B) =
        allOps A ++ (opsOf pred ++ allOps B) := by
      rw [allOps_append, allOps_cons, opsOf_set_dest]
    rw [hallops_new]
    have hsub : List.Sublist (allOps A ++ (opsOf pred ++ allOps B))
        (allOps A ++ (opsOf pred ++ ([op] ++ allOps B))) := by
      refine List.Sublist.append_left ?_ _
      refine List.Sublist.append_left ?_ _
      exact List.sublist_append_right _ _
    exact List.Nodup.sublist hsub (hallops ▸ hinv.nodupOps)
  · -- no Nop in the scanned prefix
    intro i inst hi hlook
    rcases Nat.lt_trichotomy i A.length with hlt | heq | hgt
    · rw [List.getElem?_append_left hlt] at hlook
      have : (A ++ pred :: Instruction.Nop dest op :: B)[i]? = some inst := by
        rw [List.getElem?_append_left hlt, hlook]
      exact hinv.prefixNoNop i inst (by omega) this
    · subst heq
      rw [List.getElem?_append_right (le_refl _), Nat.sub_self] at hlook
      simp only [List.getElem?_cons_zero, Option.some.injEq] at hlook
      subst hlook
      rw [is_nop_set_dest]
      have : (A ++ pred :: Instruction.Nop dest op :: B)[A.length]? = some pred := by
        rw [List.getElem?_append_right (le_refl _), Nat.sub_self]
        simp
      exact hinv.prefixNoNop A.length pred (by omega) this
    · omega

theorem ninv_extend {l : List Instruction} {idx : Nat} (hinv : NInv l idx)
    (h : idx < l.length) (hnotnop : (l.get ⟨idx, h⟩).is_nop = false) :
    NInv l (idx + 1) :=
  ⟨hinv.sorted, hinv.chain, hinv.headPrim, hinv.binOps, hinv.nodupOps,
   fun i inst hi hl => by
     rcases Nat.lt_or_ge i idx with h' | h'
     · exact hinv.prefixNoNop i inst h' hl
     · have hEq : i = idx := by omega
       subst hEq
       rw [List.getElem?_eq_getElem h] at hl
       cases hl
       simpa [List.get_eq_getElem] using hnotnop⟩

/-- The outer loop of `remove_nop`, run with enough fuel from a state
satisfying the invariant, produces a list satisfying the invariant everywhere
(in particular: no `Nop` remains). -/
theorem removeNopLoop_ninv : ∀ (fuel : Nat) (l : List Instruction) (idx : Nat),
    NInv l idx → 2 * l.length - idx < fuel →
    NInv (removeNopLoop fuel l idx) (removeNopLoop fuel l idx).length := by
  intro fuel
  induction fuel with
  | zero =>
    intro l idx hinv hfuel
    omega
  | succ fuel ih =>
    intro l idx hinv hfuel
    rw [removeNopLoop]
    split
    case isFalse hlt =>
      exact ⟨hinv.sorted, hinv.chain, hinv.headPrim, hinv.binOps, hinv.nodupOps,
        fun i inst hi hl => by
          have : i < l.length := by
            by_contra hc
            rw [List.getElem?_eq_none (by omega)] at hl
            cases hl
          exact hinv.prefixNoNop i inst (by omega) hl⟩
    case isTrue hlt =>
      split
      case _ dest op heq =>
        -- the scanned instruction is a Nop: contract it
        have heqq : l[idx]? = some (.Nop dest op) := by
          rw [List.getElem?_eq_getElem hlt, heq]
        have hidx1 : 1 ≤ idx := by
          rcases Nat.eq_zero_or_pos idx with rfl | h1
          · exfalso
            obtain ⟨d0, hd0⟩ := hinv.headPrim (l.get ⟨0, hlt⟩) (by
              rw [List.head?_eq_getElem?, List.getElem?_eq_getElem hlt]
              rw [List.get_eq_getElem])
            rw [List.get_eq_getElem, heq] at hd0
            cases hd0
          · exact h1
        obtain ⟨hdec, hAlen⟩ := decompose_two hidx1 hlt
        have hget : l.get ⟨idx, hlt⟩ = .Nop dest op := by
          rw [List.get_eq_getElem]; exact heq
        rw [hget] at hdec
        set A := l.take (idx - 1) with hA
        set pred := l.get ⟨idx - 1, by omega⟩ with hpred
        set B := l.drop (idx + 1) with hB
        have hidxA : idx = A.length + 1 := by omega
        have hlenl : l.length = A.length + B.length + 2 := by
          have := congrArg List.length hdec
          simpa using this
        have hpredq : l[idx - 1]? = some pred := by
          rw [List.getElem?_eq_getElem (show idx - 1 < l.length by omega)]
          rw [hpred, List.get_eq_getElem]
        -- the operand of the Nop is its predecessor's destination
        have hop : op = pred.get_dest := by
          have hadj := chain_adj_getElem hinv.chain hpredq
            (by rw [show idx - 1 + 1 = idx by omega]; exact heqq)
          rw [opsAdj] at hadj
          simpa [shapeOf] using hadj
        -- the producer of `op` is found at position idx - 1
        have hfind1 : findDest l op = some (idx - 1) := by
          refine findDest_eq_some hpredq hop.symm ?_
          intro j b hj hb
          have := sorted_dest_lt hinv.sorted hj hb hpredq
          omega
        -- contracting produces the decomposed list
        have hmodify : (l.modify (fun i => i.set_dest dest) (idx - 1)).eraseIdx idx =
            A ++ pred.set_dest dest :: B := by
          conv_lhs => rw [hdec]
          rw [show idx - 1 = A.length by omega, modify_append_cons]
          rw [show idx = A.length + 1 by omega, eraseIdx_append_cons_cons]
        -- sorted facts for the second search
        have hs := hinv.sorted
        rw [hdec, SortedDests, List.pairwise_append] at hs
        obtain ⟨hsA, hsRest, hsCross⟩ := hs
        rw [List.pairwise_cons] at hsRest
        obtain ⟨hsPred, hsNB⟩ := hsRest
        rw [List.pairwise_cons] at hsNB
        obtain ⟨hsNop, hsB⟩ := hsNB
        have hpredlt : pred.get_dest < dest :=
          hsPred (Instruction.Nop dest op) (by simp)
        have hfind2 : findDest (A ++ pred.set_dest dest :: B) op = none := by
          refine findDest_eq_none ?_
          intro inst hmem
          rcases List.mem_append.1 hmem with hmA | hmPB
          · have := hsCross inst hmA pred (by simp)
            omega
          · rcases List.mem_cons.1 hmPB with rfl | hmB
            · rw [get_dest_set_dest]
              omega
            · have h1 : dest < inst.get_dest := hsNop inst hmB
              omega
        -- the inner loop contracts exactly once
        have hinner : removeNopInner (l.length + 1) l idx dest op false =
            (A ++ pred.set_dest dest :: B, true) := by
          rw [show l.length + 1 = l.length - 1 + 1 + 1 by omega]
          simp only [removeNopInner, hfind1, hmodify, hfind2]
        simp only [hinner]
        have hinvDec : NInv (A ++ pred :: Instruction.Nop dest op :: B) (A.length + 1) := by
          rw [← hidxA, ← hdec]
          exact hinv
        have hinv2 : NInv (A ++ pred.set_dest dest :: B) idx := by
          rw [hidxA]
          exact ninv_after_contract hinvDec
        have hlen2 : (A ++ pred.set_dest dest :: B).length = l.length - 1 := by
          simp only [List.length_append, List.length_cons]
          omega
        exact ih _ idx hinv2 (by omega)
      case _ heq =>
        refine ih l (idx + 1) (ninv_extend hinv hlt ?_) (by omega)
        rw [List.get_eq_getElem]
        cases hx : l[idx] with
        | Nop d o => exact absurd hx (heq d o)
        | And d o1 o2 => rfl
        | Or d o1 o2 => rfl
        | Exclude d o1 o2 => rfl
        | Xor d o1 o2 => rfl
        | Link d o cs => rfl
        | LinkTo d o cs => rfl
        | EmbeddedIn d o cs => rfl
        | InCat d o cs => rfl
        | Toggle d o => rfl
        | Pfx d o cs => rfl
        | Set d t cs => rfl

theorem shapeOK_dest {r i : Nat} {s : Shape} (h : ShapeOK r i s) :
    s.dest = r + i := by
  cases s with
  | prim d => exact h
  | un d o => exact h.1
  | bin d o1 o2 => exact h.1

theorem wf_dest_at {l : List Instruction} (h : WF 0 l) {i : Nat}
    {inst : Instruction} (hi : l[i]? = some inst) : inst.get_dest = i := by
  have := shapeOK_dest (h.1 i inst hi)
  rw [get_dest_eq_shape_dest, this]
  omega

/-- A well-formed contiguous skeleton (as emitted by `to_ir`, possibly after
the two rewriting passes) satisfies the `remove_nop` loop invariant. -/
theorem ninv_of_wf {l : List Instruction} (h : WF 0 l) : NInv l 0 := by
  refine ⟨?_, ?_, ?_, ?_, h.2, fun i inst hi hl => by omega⟩
  · rw [SortedDests, List.pairwise_iff_getElem]
    intro i j hil hjl hij
    have h1 := wf_dest_at h (List.getElem?_eq_getElem hil)
    have h2 := wf_dest_at h (List.getElem?_eq_getElem hjl)
    omega
  · rw [List.chain'_iff_get]
    intro i hi
    have hil : i < l.length := by omega
    have hi1l : i + 1 < l.length := by omega
    have hda := wf_dest_at h (List.getElem?_eq_getElem hil)
    have hsb := h.1 (i + 1) _ (List.getElem?_eq_getElem hi1l)
    show opsAdj l[i] l[i + 1]
    rw [opsAdj]
    cases hsh : shapeOf l[i + 1] with
    | prim d => trivial
    | un d o =>
      rw [hsh] at hsb
      rw [shapeOK_un] at hsb
      show o = Instruction.get_dest l[i]
      omega
    | bin d o1 o2 =>
      rw [hsh] at hsb
      rw [shapeOK_bin] at hsb
      show o2 = Instruction.get_dest l[i]
      omega
  · intro inst hh
    rw [List.head?_eq_getElem?] at hh
    have hs0 := h.1 0 inst hh
    cases hsh : shapeOf inst with
    | prim d => exact ⟨d, rfl⟩
    | un d o =>
      rw [hsh, shapeOK_un] at hs0
      omega
    | bin d o1 o2 =>
      rw [hsh, shapeOK_bin] at hs0
      omega
  · intro inst hmem d o1 o2 hsh
    obtain ⟨i, hi⟩ := List.mem_iff_getElem?.1 hmem
    have hs := h.1 i inst hi
    rw [hsh, shapeOK_bin] at hs
    refine ⟨by omega, ?_⟩
    have ho1l : o1 < l.length := by
      have : i < l.length := by
        by_contra hc
        rw [List.getElem?_eq_none (by omega)] at hi
        cases hi
      omega
    have := wf_dest_at h (List.getElem?_eq_getElem ho1l)
    exact List.mem_map.2 ⟨l[o1], List.getElem_mem _, this⟩

/-- The conclusion invariants of the compiler (spec §3 I1–I3, §8 universal
invariant 1), extracted from the `remove_nop` loop invariant holding over the
whole list. -/
theorem final_of_ninv {l : List Instruction} (h : NInv l l.length) :
    SortedDests l ∧
    (∀ (i : Nat) (inst : Instruction), l[i]? = some inst →
      ∀ o ∈ opsOf inst, o < inst.get_dest ∧
        o ∈ (l.take i).map Instruction.get_dest) ∧
    (∀ inst ∈ l, inst.is_nop = false) := by
  have hmemtake : ∀ (k i : Nat) (b : Instruction), k < i → l[k]? = some b →
      b.get_dest ∈ (l.take i).map Instruction.get_dest := by
    intro k i b hk hb
    refine List.mem_map.2 ⟨b, ?_, rfl⟩
    have : (l.take i)[k]? = some b := by
      rw [List.getElem?_take_of_lt hk]
      exact hb
    exact List.getElem?_mem this
  refine ⟨h.sorted, ?_, ?_⟩
  · intro i inst hi o ho
    have hil : i < l.length := by
      by_contra hc
      rw [List.getElem?_eq_none (by omega)] at hi
      cases hi
    have hipos : 0 < i := by
      rcases Nat.eq_zero_or_pos i with rfl | hp
      · exfalso
        obtain ⟨d0, hd0⟩ := h.headPrim inst (by rw [List.head?_eq_getElem?]; exact hi)
        rw [opsOf, hd0] at ho
        simp [Shape.ops] at ho
      · exact hp
    obtain ⟨p, hp⟩ : ∃ p, l[i - 1]? = some p :=
      ⟨l[i - 1], List.getElem?_eq_getElem (by omega)⟩
    have hadj := chain_adj_getElem h.chain hp
      (by rw [show i - 1 + 1 = i by omega]; exact hi)
    have hplt : p.get_dest < inst.get_dest :=
      sorted_dest_lt h.sorted (by omega) hp hi
    rw [opsOf] at ho
    cases hsh : shapeOf inst with
    | prim d => rw [hsh] at ho; simp [Shape.ops] at ho
    | un d o0 =>
      rw [hsh] at ho
      simp only [Shape.ops, List.mem_singleton] at ho
      subst ho
      rw [opsAdj, hsh] at hadj
      subst hadj
      exact ⟨hplt, hmemtake (i - 1) i p (by omega) hp⟩
    | bin d o1 o2 =>
      rw [hsh] at ho
      rw [opsAdj, hsh] at hadj
      obtain ⟨hlt12, ho1mem⟩ := h.binOps inst (List.getElem?_mem hi) d o1 o2 hsh
      have hdd : inst.get_dest = d := by
        rw [get_dest_eq_shape_dest, hsh]
        rfl
      have ho2lt : o2 < inst.get_dest := hadj ▸ hplt
      simp only [Shape.ops, List.mem_cons, List.not_mem_nil, or_false] at ho
      rcases ho with rfl | rfl
      · -- left operand: produced strictly earlier
        obtain ⟨b, hbmem, hbd⟩ := List.mem_map.1 ho1mem
        obtain ⟨k, hk⟩ := List.mem_iff_getElem?.1 hbmem
        have hki : k < i := by
          rcases Nat.lt_trichotomy k i with hlt2 | rfl | hgt
          · exact hlt2
          · rw [hk] at hi
            cases hi
            omega
          · have := sorted_dest_lt h.sorted hgt hi hk
            omega
        exact ⟨by omega, hbd ▸ hmemtake k i b hki hk⟩
      · subst hadj
        exact ⟨hplt, hmemtake (i - 1) i p (by omega) hp⟩
  · intro inst hmem
    obtain ⟨i, hi⟩ := List.mem_iff_getElem?.1 hmem
    have hil : i < l.length := by
      by_contra hc
      rw [List.getElem?_eq_none (by omega)] at hi
      cases hi
    exact h.prefixNoNop i inst hil hi

/-! ## The empty-namespace pass: pointwise rewrite classification -/

/-- The operand register of a one-operand (unary, non-`Nop`) instruction. -/
def unaryOperand : Instruction → Option Nat
  | .Link _ o _ | .LinkTo _ o _ | .EmbeddedIn _ o _
  | .InCat _ o _ | .Toggle _ o | .Pfx _ o _ => some o
  | _ => none

/-- Is the instruction a two-operand (`And`/`Or`/`Exclude`/`Xor`) instruction? -/
def Instruction.is_binary : Instruction → Bool
  | .And _ _ _ | .Or _ _ _ | .Exclude _ _ _ | .Xor _ _ _ => true
  | _ => false

/-- One position's admissible rewrite by `remove_empty_ns`: the instruction is
kept unchanged, a unary instruction is replaced by a `Nop` with the same
`dest` and `op`, or a `Set` is emptied (`titles.clear()` and a fresh
constraint).  Binary instructions only ever fall in the first case. -/
def rewOK (a b : Instruction) : Prop :=
  b = a ∨
  (∃ o, unaryOperand a = some o ∧ b = .Nop a.get_dest o) ∨
  (∃ d t cs, a = .Set d t cs ∧ b = .Set d [] SetConstraint.new)

theorem rewOK_refl (a : Instruction) : rewOK a a := Or.inl rfl

theorem rewOK_trans {a b c : Instruction} (h1 : rewOK a b) (h2 : rewOK b c) :
    rewOK a c := by
  rcases h2 with h2 | ⟨o, ho, hc⟩ | ⟨d, t, cs, hb, hc⟩
  · subst h2; exact h1
  · rcases h1 with h1 | ⟨o1, ho1, hb1⟩ | ⟨d1, t1, cs1, ha1, hb1⟩
    · subst h1; exact Or.inr (Or.inl ⟨o, ho, hc⟩)
    · rw [hb1] at ho
      simp [unaryOperand] at ho
    · rw [hb1] at ho
      simp [unaryOperand] at ho
  · rcases h1 with h1 | ⟨o1, ho1, hb1⟩ | ⟨d1, t1, cs1, ha1, hb1⟩
    · subst h1; exact Or.inr (Or.inr ⟨d, t, cs, hb, hc⟩)
    · rw [hb1] at hb; cases hb
    · rw [hb1] at hb
      injection hb with e1 e2 e3
      exact Or.inr (Or.inr ⟨d1, t1, cs1, ha1, by rw [hc, ← e1]⟩)

theorem forall₂_rewOK_refl (l : List Instruction) : List.Forall₂ rewOK l l :=
  List.forall₂_same.mpr (fun a _ => rewOK_refl a)

theorem forall₂_rew_trans : ∀ {l1 l2 l3 : List Instruction},
    List.Forall₂ rewOK l1 l2 → List.Forall₂ rewOK l2 l3 →
    List.Forall₂ rewOK l1 l3 := by
  intro l1 l2 l3 h1 h2
  induction h1 generalizing l3 with
  | nil => cases h2; exact .nil
  | cons hab htail ih =>
    cases h2 with
    | cons hbc h2tail => exact .cons (rewOK_trans hab hbc) (ih h2tail)

theorem forall₂_rew_set : ∀ {l : List Instruction} {idx : Nat}
    {a b : Instruction}, l[idx]? = some a → rewOK a b →
    List.Forall₂ rewOK l (l.set idx b) := by
  intro l
  induction l with
  | nil => intro idx a b ha hab; cases ha
  | cons x xs ih =>
    intro idx a b ha hab
    cases idx with
    | zero =>
      simp only [List.getElem?_cons_zero, Option.some.injEq] at ha
      subst ha
      exact List.Forall₂.cons hab (forall₂_rewOK_refl xs)
    | succ n =>
      simp only [List.getElem?_cons_succ] at ha
      exact List.Forall₂.cons (rewOK_refl x) (ih ha hab)

theorem forall₂_rew_get {l l' : List Instruction}
    (h : List.Forall₂ rewOK l l') : ∀ {i : Nat} {a : Instruction},
    l[i]? = some a → ∃ b, l'[i]? = some b ∧ rewOK a b := by
  induction h with
  | nil => intro i a ha; cases ha
  | cons hab htail ih =>
    intro i a ha
    cases i with
    | zero =>
      simp only [List.getElem?_cons_zero, Option.some.injEq] at ha
      subst ha
      exact ⟨_, List.getElem?_cons_zero, hab⟩
    | succ n =>
      simp only [List.getElem?_cons_succ] at ha ⊢
      exact ih ha

/-- The subtree walk of `remove_empty_ns` only performs admissible pointwise
rewrites: it keeps, `Nop`s (unary) or empties (`Set`) each instruction in
place, and in particular never rewrites a binary instruction. -/
theorem emptyNsStack_rew : ∀ (fuel : Nat) (ir : List Instruction)
    (st : List Nat), List.Forall₂ rewOK ir (emptyNsStack fuel ir st) := by
  intro fuel
  induction fuel with
  | zero =>
    intro ir st
    cases st with
    | nil => exact forall₂_rewOK_refl ir
    | cons a rest => exact forall₂_rewOK_refl ir
  | succ fuel ih =>
    intro ir st
    cases st with
    | nil => exact forall₂_rewOK_refl ir
    | cons opdest rest =>
      rw [emptyNsStack]
      split
      · exact ih _ _
      · split
        all_goals try exact ih _ _
        all_goals rename_i heq
        all_goals
          first
            | exact forall₂_rew_trans
                (forall₂_rew_set heq (Or.inr (Or.inl ⟨_, rfl, rfl⟩))) (ih _ _)
            | exact forall₂_rew_trans
                (forall₂_rew_set heq (Or.inr (Or.inr ⟨_, _, _, rfl, rfl⟩))) (ih _ _)

theorem emptyNsLoop_rew : ∀ (n : Nat) (ir : List Instruction) (idx : Nat),
    List.Forall₂ rewOK ir (emptyNsLoop n ir idx) := by
  intro n
  induction n with
  | zero => intro ir idx; exact forall₂_rewOK_refl ir
  | succ n ih =>
    intro ir idx
    rw [emptyNsLoop]
    split
    · rename_i h
      refine forall₂_rew_trans ?_ (ih _ _)
      split
      · exact emptyNsStack_rew _ _ _
      · exact forall₂_rewOK_refl ir
    · exact forall₂_rewOK_refl ir

/-! ## Theorems -/

/-- **C1** (code-bug evidence).  In `PageWriter::start` the branch that
executes the query, composes the body and submits `action=edit` is the `else`
of `if let Some(denied_namespace) = self.denied_namespace`.  Hence for a
target page that exists, is not a redirect and whose namespace is *not* in the
configured denied-namespace set, the iteration falls through and performs no
edit; an edit is only reached when no denied-namespace set is configured at
all (`TaskRunner::start` always configures one via `set_denied_namespace`).
The claim requires such a page to be edited. -/
theorem c1_pagewriter_denied_set_blocks_all_edits :
    pageGuardrailOutcome false false 0 (some {3}) = .fallthrough ∧
    PageGuardrailOutcome.fallthrough ≠ .edit ∧
    pageGuardrailOutcome true false 0 (some {3}) = .skipMissing ∧
    pageGuardrailOutcome false true 0 (some {3}) = .skipRedirect ∧
    pageGuardrailOutcome false false 3 (some {3}) = .skipDeniedNamespace ∧
    pageGuardrailOutcome false false 0 none = .edit := by
  refine ⟨rfl, by decide, rfl, rfl, by decide, rfl⟩

/-- **C4** (code-bug evidence).  Combining the two limit fragments
`limit(10), limit(-1)` in one `.constraint(...)` form yields `limit = -1`
(which the IR treats as unbounded), not the non-negative `10` that the
claimed ∞-aware element-wise minimum requires; the same pair in the other
order yields `10`, and `merge_constraints` — the constraint-attachment merge
the same claim also covers — implements the claimed rule on the same pair. -/
theorem c4_limit_fragments_negative_overrides_nonnegative :
    construct_constraints_from_vec [.Limit 10, .Limit (-1)] =
      .ok { SetConstraint.new with limit := some (-1) } ∧
    construct_constraints_from_vec [.Limit (-1), .Limit 10] =
      .ok { SetConstraint.new with limit := some 10 } ∧
    merge_constraints { SetConstraint.new with limit := some 10 }
        { SetConstraint.new with limit := some (-1) } =
      .ok { SetConstraint.new with limit := some 10 } ∧
    merge_constraints { SetConstraint.new with limit := some (-1) }
        { SetConstraint.new with limit := some 10 } =
      .ok { SetConstraint.new with limit := some 10 } := by
  refine ⟨rfl, rfl, rfl, rfl⟩

/-- **C9** (code-bug evidence).  Under Rust drop semantics every
`API_SERVICE.get_lock().lock().await;` statement of `PageWriter::start` and
`QueryExecutor::execute` drops its unbound `MutexGuard` at the end of that
statement, so each following request batch executes at lock depth zero: no
request of a writer iteration (guardrail read, evaluation, edit) is under the
coarse lock, while a correctly bracketed trace would satisfy the detector. -/
theorem c9_api_requests_issued_outside_coarse_lock :
    allRequestsUnderLock writerGuardrailEvents = false ∧
    allRequestsUnderLock executorSolveEvents = false ∧
    allRequestsUnderLock writerEditEvents = false ∧
    allRequestsUnderLock writerIterationEvents = false ∧
    allRequestsUnderLock
      [.lockAcquire, .request ("a correctly bracketed batch"), .lockRelease] = true := by
  refine ⟨rfl, rfl, rfl, rfl, rfl⟩

/-- **C8** (confirmed).  One iteration of the `TaskRunner::start` loop:
(1) with a fetched task, the body executes iff the global activate flag, the
task's activate flag and cron alignment all hold; (2) starting from the
initial `aligned_to_cron = false`, the first iteration never executes;
(3) on cron-parse failure the alignment is cleared and the retry back-off is
the fixed `10 * 60` seconds (whatever else happened that iteration);
(4) on task-fetch failure likewise, and nothing executes. -/
theorem c8_runner_executes_iff_activated_and_aligned :
    (∀ (cronParses : String → Bool) (g aligned : Bool) (t : RunnerTaskInfo),
      (runnerStep cronParses g aligned (some t)).executed =
        (g && t.activate && aligned)) ∧
    (∀ (cronParses : String → Bool) (g : Bool) (task : Option RunnerTaskInfo),
      (runnerStep cronParses g runnerInitialAligned task).executed = false) ∧
    (∀ (cronParses : String → Bool) (g aligned : Bool) (t : RunnerTaskInfo),
      cronParses t.cron = false →
      runnerStep cronParses g aligned (some t) =
        { executed := g && t.activate && aligned, aligned_to_cron := false,
          sleep := .backoffSecs (10 * 60) }) ∧
    (∀ (cronParses : String → Bool) (g aligned : Bool),
      runnerStep cronParses g aligned none =
        { executed := false, aligned_to_cron := false,
          sleep := .backoffSecs (10 * 60) }) := by
  refine ⟨fun cronParses g aligned t => ?_, fun cronParses g task => ?_,
    fun cronParses g aligned t h => ?_, fun cronParses g aligned => rfl⟩
  · simp only [runnerStep]
    by_cases h : cronParses t.cron = true <;> simp [h]
  · cases task with
    | none => rfl
    | some t =>
      simp only [runnerStep, runnerInitialAligned, Bool.and_false]
      by_cases h : cronParses t.cron = true <;> simp [h]
  · simp [runnerStep, h]

/-- **C8 witness**: a concrete iteration with a fetched, activated task,
global activation and alignment, whose cron string fails to parse: the body
executes, the alignment is cleared and the sleep is the 10-minute back-off. -/
theorem c8_runner_executes_iff_activated_and_aligned_witness :
    runnerStep (fun _ => false) true true (some { activate := true, cron := "bad cron" }) =
      { executed := true, aligned_to_cron := false,
        sleep := .backoffSecs (10 * 60) } :=
  c8_runner_executes_iff_activated_and_aligned.2.2.1 (fun _ => false) true true
    { activate := true, cron := "bad cron" } rfl

/-- **C10** (confirmed).  `QueryExecutor::execute` evaluates lazily and caches:
(1) a second call — with *any* evaluation outcome, in particular without any
re-parse, re-evaluation or remote traffic — returns exactly the cached result
and leaves the state unchanged; (2) the first call on a fresh executor returns
the success titles sorted by (namespace id ascending, printable name
ascending); (3) the first call classifies an error outcome unchanged; (4) the
first call caches exactly what it returns. -/
theorem c10_query_executor_caches_and_sorts :
    (∀ (outcome outcome2 : Except QueryExecutorError (Finset Title))
        (s : QueryExecutor),
      QueryExecutor.execute outcome2 (QueryExecutor.execute outcome s).2 =
        ((QueryExecutor.execute outcome s).1, (QueryExecutor.execute outcome s).2)) ∧
    (∀ (q : String) (cfg : TaskConfig) (S : Finset Title),
      (QueryExecutor.execute (.ok S) (QueryExecutor.new q cfg)).1 =
        .ok (sortTitles S)) ∧
    (∀ (q : String) (cfg : TaskConfig) (e : QueryExecutorError),
      (QueryExecutor.execute (.error e) (QueryExecutor.new q cfg)).1 = .error e) ∧
    (∀ (outcome : Except QueryExecutorError (Finset Title)) (s : QueryExecutor),
      ((QueryExecutor.execute outcome s).2).result =
        some (QueryExecutor.execute outcome s).1) := by
  refine ⟨fun outcome outcome2 s => ?_, fun q cfg S => rfl, fun q cfg e => rfl,
    fun outcome s => ?_⟩
  · cases hs : s.result with
    | some r => simp [QueryExecutor.execute, hs]
    | none => cases outcome <;> simp [QueryExecutor.execute, hs]
  · cases hs : s.result with
    | some r => simp [QueryExecutor.execute, hs]
    | none => cases outcome <;> simp [QueryExecutor.execute, hs]

/-- **C6** (confirmed).  For each of the five remote-fetch instructions
(`Link`, `LinkTo`, `EmbeddedIn`, `InCat`, `Prefix`), `solve_api`'s step on an
operand register holding more than one page fails with
`QueryForMultiplePages`, and on an empty operand writes the empty set to the
destination register — with a result that does not depend on the oracle
standing for the remote API, i.e. without issuing any remote request. -/
theorem c6_remote_fetch_singleton_precondition
    (o : ApiOracle) (dl : Int) (reg : Register) (dest op : Nat)
    (cs : SetConstraint) (s : Finset Title) (hreg : reg op = some s) :
    (1 < s.card →
      solveStep o dl reg (.Link dest op cs) = .error .QueryForMultiplePages ∧
      solveStep o dl reg (.LinkTo dest op cs) = .error .QueryForMultiplePages ∧
      solveStep o dl reg (.EmbeddedIn dest op cs) = .error .QueryForMultiplePages ∧
      solveStep o dl reg (.InCat dest op cs) = .error .QueryForMultiplePages ∧
      solveStep o dl reg (.Pfx dest op cs) = .error .QueryForMultiplePages) ∧
    (s = ∅ →
      solveStep o dl reg (.Link dest op cs) = .ok (reg.insert dest ∅) ∧
      solveStep o dl reg (.LinkTo dest op cs) = .ok (reg.insert dest ∅) ∧
      solveStep o dl reg (.EmbeddedIn dest op cs) = .ok (reg.insert dest ∅) ∧
      solveStep o dl reg (.InCat dest op cs) = .ok (reg.insert dest ∅) ∧
      solveStep o dl reg (.Pfx dest op cs) = .ok (reg.insert dest ∅)) := by
  constructor
  · intro hcard
    have hne : ¬s = ∅ := by
      intro h
      rw [h] at hcard
      simp at hcard
    simp [solveStep, get_set_1, hreg, hne, hcard, Except.bind, bind]
  · intro hempty
    subst hempty
    simp [solveStep, get_set_1, hreg, Except.bind, bind]

/-- **C2** (confirmed).  For every expression on which `parse` succeeds, the
returned instruction sequence satisfies the compiled-query invariants: the
sequence is sorted by destination register strictly ascending (I2); every
non-primitive instruction's operand register ids are strictly less than its
own `dest` and are destinations of strictly earlier instructions (I1); and no
`Nop` instruction remains after optimization (I3). -/
theorem c2_parse_compiled_query_invariants :
    ∀ (e : Expr) (l : List Instruction) (fin : Nat),
    parse e = .ok (l, fin) →
    SortedDests l ∧
    (∀ (i : Nat) (inst : Instruction), l[i]? = some inst →
      ∀ o ∈ opsOf inst, o < inst.get_dest ∧
        o ∈ (l.take i).map Instruction.get_dest) ∧
    (∀ inst ∈ l, inst.is_nop = false) := by
  intro e l fin h
  rw [parse] at h
  cases ht : to_ir e with
  | error e0 =>
    rw [ht] at h
    simp only [bind, Except.bind] at h
    cases h
  | ok p =>
    obtain ⟨l0, fin0⟩ := p
    rw [ht] at h
    simp only [bind, Except.bind, Except.ok.injEq, Prod.mk.injEq] at h
    obtain ⟨hl, hfin⟩ := h
    obtain ⟨hwf0, hd0, hp0⟩ := irNode_wf e 0 l0 fin0 ht
    have hsh1 := remove_redundent_talk_shapes l0
    have hsh2 := remove_empty_ns_shapes (remove_redundent_talk l0)
    have hwf2 : WF 0 (remove_empty_ns (remove_redundent_talk l0)) :=
      wf_of_shapes_eq (hsh2.trans hsh1).symm hwf0
    have hninv := ninv_of_wf hwf2
    have hfin2 := removeNopLoop_ninv
      (2 * (remove_empty_ns (remove_redundent_talk l0)).length + 1)
      (remove_empty_ns (remove_redundent_talk l0)) 0 hninv (by omega)
    rw [remove_nop] at hl
    exact hl ▸ final_of_ninv hfin2

/-- **C2 witness**: the compiled form of `page("A")` — the single instruction
`Set 0` — satisfies all three invariants. -/
theorem c2_parse_compiled_query_invariants_witness :
    SortedDests [Instruction.Set 0 ["A"] SetConstraint.new] ∧
    (∀ (i : Nat) (inst : Instruction),
      [Instruction.Set 0 ["A"] SetConstraint.new][i]? = some inst →
      ∀ o ∈ opsOf inst, o < inst.get_dest ∧
        o ∈ ([Instruction.Set 0 ["A"] SetConstraint.new].take i).map
          Instruction.get_dest) ∧
    (∀ inst ∈ [Instruction.Set 0 ["A"] SetConstraint.new], inst.is_nop = false) :=
  c2_parse_compiled_query_invariants (.Page ["A"]) _ 0 rfl

theorem toggleNsId_involutive (n : Int) : toggleNsId (toggleNsId n) = n := by
  unfold toggleNsId
  split <;> split <;> omega

theorem into_toggle_talk_involutive (t : Title) :
    t.into_toggle_talk.into_toggle_talk = t := by
  cases t
  simp [Title.into_toggle_talk, toggleNsId_involutive]

theorem toggle_image_involutive (s : Finset Title) :
    (s.image Title.into_toggle_talk).image Title.into_toggle_talk = s := by
  rw [Finset.image_image]
  have hcomp : Title.into_toggle_talk ∘ Title.into_toggle_talk = id :=
    funext fun t => into_toggle_talk_involutive t
  rw [hcomp, Finset.image_id]

theorem solveList_append (o : ApiOracle) (dl : Int) (l₁ l₂ : List Instruction)
    (reg : Register) :
    solveList o dl (l₁ ++ l₂) reg =
      match solveList o dl l₁ reg with
      | .ok reg2 => solveList o dl l₂ reg2
      | .error e => .error e := by
  induction l₁ generalizing reg with
  | nil => rfl
  | cons i rest ih =>
    simp only [List.cons_append, solveList, bind, Except.bind]
    cases solveStep o dl reg i with
    | error e0 => rfl
    | ok reg2 => exact ih reg2

/-- A trivial oracle used only to witness oracle-quantified theorems. -/
def demoOracle : ApiOracle :=
  { get_links_one := fun _ _ _ _ => .ok ∅,
    get_backlinks_one := fun _ _ _ _ _ _ => .ok ∅,
    get_embed_one := fun _ _ _ _ _ => .ok ∅,
    get_category_members_one := fun _ _ _ _ _ => .ok ∅,
    get_pfx_index_one := fun _ _ _ _ => .ok ∅,
    title_new_from_full := fun st => .ok { namespace_id := 0, pretty := st } }

/-- A register file holding a two-page set in register 0. -/
def demoRegisterTwo : Register :=
  fun r => if r = 0 then
    some {{ namespace_id := 0, pretty := "A" }, { namespace_id := 0, pretty := "B" }}
  else none

/-- A register file holding the empty set in register 0. -/
def demoRegisterEmpty : Register :=
  fun r => if r = 0 then some ∅ else none

/-- **C6 witness**: register 0 holds two pages — each remote fetch on it fails
with `QueryForMultiplePages`; register 0 empty — the `Link` step writes the
empty set. -/
theorem c6_remote_fetch_singleton_precondition_witness :
    solveStep demoOracle 0 demoRegisterTwo (.Link 1 0 SetConstraint.new) =
      .error .QueryForMultiplePages ∧
    solveStep demoOracle 0 demoRegisterEmpty (.Link 1 0 SetConstraint.new) =
      .ok (demoRegisterEmpty.insert 1 ∅) := by
  refine ⟨((c6_remote_fetch_singleton_precondition demoOracle 0 demoRegisterTwo 1 0
    SetConstraint.new _ rfl).1 (by decide)).1,
    ((c6_remote_fetch_singleton_precondition demoOracle 0 demoRegisterEmpty 1 0
    SetConstraint.new _ rfl).2 rfl).1⟩

/-- **C7** (confirmed).  Toggle is self-inverse: (a) wrapping any compiled
expression in `Toggle(Toggle(·))` appends two `Toggle` instructions, and the
evaluator (`solve_api`) yields exactly the same result on the wrapped program
as on the original, over every oracle (input), including all error cases —
because flipping the low namespace bit (`into_toggle_talk`) is an involution;
(b) correspondingly the optimizer eliminates the double toggle:
`toggle(toggle(incat(page("Category:X"))))` compiles to exactly two
instructions, `Set` then `InCat` (scenario S2). -/
theorem c7_toggle_self_inverse (o : ApiOracle) (dl : Int) (e : Expr)
    (l : List Instruction) (d : Nat) (h : to_ir e = .ok (l, d)) :
    to_ir (.Unary .Toggle (.Unary .Toggle e)) =
      .ok (l ++ [.Toggle (d + 1) d, .Toggle (d + 2) (d + 1)], d + 2) ∧
    solve_api o (l ++ [.Toggle (d + 1) d, .Toggle (d + 2) (d + 1)], d + 2) dl =
      solve_api o (l, d) dl ∧
    parse (.Unary .Toggle (.Unary .Toggle (.Unary .InCategory
        (.Page ["Category:X"])))) =
      .ok ([.Set 0 ["Category:X"] SetConstraint.new,
            .InCat 3 0 SetConstraint.new], 3) := by
  rw [to_ir] at h
  refine ⟨?_, ?_, rfl⟩
  · rw [to_ir]
    simp only [irNode, bind, Except.bind, h, List.append_assoc]
    rfl
  · rw [solve_api, solve_api]
    have hsplit := solveList_append o dl l
      [.Toggle (d + 1) d, .Toggle (d + 2) (d + 1)] (fun _ => none)
    cases hr : solveList o dl l (fun _ => none) with
    | error e0 =>
      rw [hr] at hsplit
      simp only [bind, Except.bind, hsplit, hr]
    | ok reg1 =>
      rw [hr] at hsplit
      simp only [bind, Except.bind, hsplit, hr]
      cases hg : reg1 d with
      | none =>
        simp [solveList, solveStep, get_set_1, hg, bind, Except.bind]
      | some s =>
        simp [solveList, solveStep, get_set_1, hg, bind, Except.bind,
          Register.insert, toggle_image_involutive]

/-- **C7 witness**: instantiated at the literal program `page("A")` and the
trivial oracle. -/
theorem c7_toggle_self_inverse_witness :
    to_ir (Expr.Unary .Toggle (.Unary .Toggle (.Page ["A"]))) =
      .ok ([.Set 0 ["A"] SetConstraint.new, .Toggle 1 0, .Toggle 2 1], 2) ∧
    solve_api demoOracle
      ([Instruction.Set 0 ["A"] SetConstraint.new, .Toggle 1 0, .Toggle 2 1], 2) 0 =
      solve_api demoOracle ([Instruction.Set 0 ["A"] SetConstraint.new], 0) 0 ∧
    parse (.Unary .Toggle (.Unary .Toggle (.Unary .InCategory
        (.Page ["Category:X"])))) =
      .ok ([.Set 0 ["Category:X"] SetConstraint.new,
            .InCat 3 0 SetConstraint.new], 3) :=
  c7_toggle_self_inverse demoOracle 0 (.Page ["A"])
    [Instruction.Set 0 ["A"] SetConstraint.new] 0 rfl

theorem exceptBind_error {α β : Type} {x : Except PLBotParserError α}
    {f : α → Except PLBotParserError β} {err : PLBotParserError}
    (h : Except.bind x f = .error err) :
    x = .error err ∨ ∃ v, x = .ok v ∧ f v = .error err := by
  cases x with
  | error e =>
    simp only [Except.bind] at h
    left
    injection h with h2
    rw [h2]
  | ok v =>
    right
    refine ⟨v, rfl, ?_⟩
    simpa only [Except.bind] using h

theorem except_bind_error {α β : Type} {x : Except PLBotParserError α}
    {f : α → Except PLBotParserError β} {err : PLBotParserError}
    (h : x >>= f = .error err) :
    x = .error err ∨ ∃ v, x = .ok v ∧ f v = .error err :=
  exceptBind_error h

theorem constructLoop_semantic : ∀ (cs : List Constraint) (acc : SetConstraint)
    (err : PLBotParserError), constructLoop acc cs = .error err →
    ∃ m, err = .Semantic m := by
  intro cs
  induction cs with
  | nil => intro acc err h; cases h
  | cons c rest ih =>
    intro acc err h
    cases c <;> simp only [constructLoop] at h <;>
      (repeat' split at h) <;>
      first
        | exact ih _ _ h
        | (injection h with h2; exact ⟨_, h2.symm⟩)

theorem merge_constraints_semantic (a b : SetConstraint) (err : PLBotParserError)
    (h : merge_constraints a b = .error err) : ∃ m, err = .Semantic m := by
  rw [merge_constraints] at h
  rcases exceptBind_error h with h1 | ⟨ns, h1, h⟩
  · split at h1 <;> cases h1
  rcases exceptBind_error h with h1 | ⟨depth, h1, h⟩
  · split at h1
    · cases h1
    · cases h1
    · split at h1
      · cases h1
      · injection h1 with h2; exact ⟨_, h2.symm⟩
  rcases exceptBind_error h with h1 | ⟨redir, h1, h⟩
  · split at h1
    · cases h1
    · cases h1
    · split at h1
      · cases h1
      · injection h1 with h2; exact ⟨_, h2.symm⟩
  rcases exceptBind_error h with h1 | ⟨directlink, h1, h⟩
  · split at h1
    · cases h1
    · cases h1
    · split at h1
      · cases h1
      · injection h1 with h2; exact ⟨_, h2.symm⟩
  rcases exceptBind_error h with h1 | ⟨resolveredir, h1, h⟩
  · split at h1
    · cases h1
    · cases h1
    · split at h1
      · cases h1
      · injection h1 with h2; exact ⟨_, h2.symm⟩
  cases h

theorem applyConstraint_semantic : ∀ (fuel : Nat) (inst : List Instruction)
    (st : List (Nat × SetConstraint)) (err : PLBotParserError),
    applyConstraint fuel inst st = .error err → ∃ m, err = .Semantic m := by
  intro fuel
  induction fuel with
  | zero =>
    intro inst st err h
    cases st with
    | nil => cases h
    | cons head rest =>
      simp only [applyConstraint] at h
      injection h with h2
      exact ⟨_, h2.symm⟩
  | succ fuel ih =>
    intro inst st err h
    cases st with
    | nil => cases h
    | cons head rest =>
      obtain ⟨target, con⟩ := head
      simp only [applyConstraint] at h
      split at h
      · injection h with h2; exact ⟨_, h2.symm⟩
      · rename_i idx hfd
        split at h
        · injection h with h2; exact ⟨_, h2.symm⟩
        · rename_i i hins
          split at h
          case _ d o1 o2 => exact ih _ _ _ h
          case _ d o1 o2 => exact ih _ _ _ h
          case _ d o1 o2 => exact ih _ _ _ h
          case _ d o1 o2 => exact ih _ _ _ h
          case _ d o cs =>
            -- Link
            split at h
            · injection h with h2; exact ⟨_, h2.symm⟩
            · split at h
              · injection h with h2; exact ⟨_, h2.symm⟩
              · cases hm : merge_constraints cs con with
                | error e0 =>
                  rw [hm] at h
                  simp only [bind, Except.bind] at h
                  injection h with h2
                  obtain ⟨m, hm2⟩ := merge_constraints_semantic cs con e0 hm
                  exact ⟨m, h2 ▸ hm2⟩
                | ok nc =>
                  rw [hm] at h
                  simp only [bind, Except.bind] at h
                  exact ih _ _ _ h
          case _ d o cs =>
            -- LinkTo
            split at h
            · injection h with h2; exact ⟨_, h2.symm⟩
            · cases hm : merge_constraints cs con with
              | error e0 =>
                rw [hm] at h
                simp only [bind, Except.bind] at h
                injection h with h2
                obtain ⟨m, hm2⟩ := merge_constraints_semantic cs con e0 hm
                exact ⟨m, h2 ▸ hm2⟩
              | ok nc =>
                rw [hm] at h
                simp only [bind, Except.bind] at h
                exact ih _ _ _ h
          case _ d o cs =>
            -- EmbeddedIn
            split at h
            · injection h with h2; exact ⟨_, h2.symm⟩
            · cases hm : merge_constraints cs con with
              | error e0 =>
                rw [hm] at h
                simp only [bind, Except.bind] at h
                injection h with h2
                obtain ⟨m, hm2⟩ := merge_constraints_semantic cs con e0 hm
                exact ⟨m, h2 ▸ hm2⟩
              | ok nc =>
                rw [hm] at h
                simp only [bind, Except.bind] at h
                exact ih _ _ _ h
          case _ d o cs =>
            -- InCat
            split at h
            · injection h with h2; exact ⟨_, h2.symm⟩
            · split at h
              · injection h with h2; exact ⟨_, h2.symm⟩
              · cases hm : merge_constraints cs con with
                | error e0 =>
                  rw [hm] at h
                  simp only [bind, Except.bind] at h
                  injection h with h2
                  obtain ⟨m, hm2⟩ := merge_constraints_semantic cs con e0 hm
                  exact ⟨m, h2 ▸ hm2⟩
                | ok nc =>
                  rw [hm] at h
                  simp only [bind, Except.bind] at h
                  exact ih _ _ _ h
          case _ d o =>
            -- Toggle
            split at h
            · exact ih _ _ _ h
            · exact ih _ _ _ h
          case _ d o cs =>
            -- Pfx
            split at h
            · injection h with h2; exact ⟨_, h2.symm⟩
            · cases hm : merge_constraints cs con with
              | error e0 =>
                rw [hm] at h
                simp only [bind, Except.bind] at h
                injection h with h2
                obtain ⟨m, hm2⟩ := merge_constraints_semantic cs con e0 hm
                exact ⟨m, h2 ▸ hm2⟩
              | ok nc =>
                rw [hm] at h
                simp only [bind, Except.bind] at h
                exact ih _ _ _ h
          case _ d o => exact ih _ _ _ h
          case _ d titles cs =>
            -- Set
            split at h
            · injection h with h2; exact ⟨_, h2.symm⟩
            · cases hm : merge_constraints cs con with
              | error e0 =>
                rw [hm] at h
                simp only [bind, Except.bind] at h
                injection h with h2
                obtain ⟨m, hm2⟩ := merge_constraints_semantic cs con e0 hm
                exact ⟨m, h2 ▸ hm2⟩
              | ok nc =>
                rw [hm] at h
                simp only [bind, Except.bind] at h
                exact ih _ _ _ h

theorem construct_checked_semantic (cs : List Constraint) (err : PLBotParserError)
    (h : construct_constraints_checked cs = .error err) : ∃ m, err = .Semantic m := by
  rw [construct_constraints_checked] at h
  rcases except_bind_error h with h0 | ⟨sc, h0, h⟩
  · rw [construct_constraints_from_vec] at h0
    exact constructLoop_semantic _ _ _ h0
  · split at h
    · split at h
      · injection h with h2; exact ⟨_, h2.symm⟩
      · cases h
    · cases h

theorem irNodeChecked_semantic : ∀ (e : Expr) (reg : Nat) (err : PLBotParserError),
    irNodeChecked e reg = .error err → ∃ m, err = .Semantic m := by
  intro e
  induction e with
  | Page l => intro reg err h; cases h
  | Unary op c ih =>
    intro reg err h
    simp only [irNodeChecked] at h
    rcases except_bind_error h with h0 | ⟨p, h0, h⟩
    · exact ih _ _ h0
    · obtain ⟨insts, d⟩ := p
      cases h
  | Binary l op r ihl ihr =>
    intro reg err h
    simp only [irNodeChecked] at h
    rcases except_bind_error h with h0 | ⟨p, h0, h⟩
    · exact ihl _ _ h0
    · obtain ⟨lop, ld⟩ := p
      rcases except_bind_error h with h1 | ⟨q, h1, h⟩
      · exact ihr _ _ h1
      · obtain ⟨rop, rd⟩ := q
        cases h
  | Constrained c cons ih =>
    intro reg err h
    simp only [irNodeChecked] at h
    rcases except_bind_error h with h0 | ⟨p, h0, h⟩
    · exact ih _ _ h0
    · obtain ⟨insts, d⟩ := p
      rcases except_bind_error h with h1 | ⟨sc, h1, h⟩
      · exact construct_checked_semantic _ _ h1
      · rcases except_bind_error h with h2 | ⟨insts2, h2, h⟩
        · exact applyConstraint_semantic _ _ _ _ h2
        · cases h

theorem irNodeChecked_neg_ns : ∀ (e : Expr), hasNegativeNsConstraint e = true →
    ∀ reg, ∃ m, irNodeChecked e reg = .error (.Semantic m) := by
  intro e
  induction e with
  | Page l => intro h; simp [hasNegativeNsConstraint] at h
  | Unary op c ih =>
    intro h reg
    rw [hasNegativeNsConstraint] at h
    obtain ⟨m, hm⟩ := ih h reg
    refine ⟨m, ?_⟩
    simp only [irNodeChecked, hm, bind, Except.bind]
  | Binary l op r ihl ihr =>
    intro h reg
    rw [hasNegativeNsConstraint, Bool.or_eq_true] at h
    cases h with
    | inl hl =>
      obtain ⟨m, hm⟩ := ihl hl reg
      exact ⟨m, by simp only [irNodeChecked, hm, bind, Except.bind]⟩
    | inr hr =>
      cases hres : irNodeChecked l reg with
      | error e0 =>
        obtain ⟨m, hm⟩ := irNodeChecked_semantic l reg e0 hres
        refine ⟨m, ?_⟩
        rw [hm] at hres
        simp only [irNodeChecked, hres, bind, Except.bind]
      | ok p =>
        obtain ⟨lop, ld⟩ := p
        obtain ⟨m, hm⟩ := ihr hr (ld + 1)
        refine ⟨m, ?_⟩
        simp only [irNodeChecked, hres, hm, bind, Except.bind]
  | Constrained c cons ih =>
    intro h reg
    rw [hasNegativeNsConstraint, Bool.or_eq_true] at h
    cases hres : irNodeChecked c reg with
    | error e0 =>
      obtain ⟨m, hm⟩ := irNodeChecked_semantic c reg e0 hres
      refine ⟨m, ?_⟩
      rw [hm] at hres
      simp only [irNodeChecked, hres, bind, Except.bind]
    | ok p =>
      obtain ⟨insts, d⟩ := p
      cases h with
      | inr hc =>
        obtain ⟨m, hm⟩ := ih hc reg
        rw [hres] at hm
        cases hm
      | inl hns =>
        split at hns
        · rename_i sc hcc
          split at hns
          · rename_i s hs
            have hck : construct_constraints_checked cons =
                .error (.Semantic ("negative namespace")) := by
              rw [construct_constraints_checked]
              simp only [bind, Except.bind, hcc, hs]
              rw [if_pos (of_decide_eq_true hns)]
            refine ⟨"negative namespace", ?_⟩
            simp only [irNodeChecked, hres, hck, bind, Except.bind]
          · cases hns
        · cases hns

/-- **C5** (confirmed; the in-tree parser revision that performs the negative-
namespace rejection is spec-modelled, see `construct_constraints_checked`).
Compilation rejects with a `Semantic` error every expression carrying a
constraint whose constructed namespace set contains a negative namespace
identifier: `parseChecked` returns `.error (.Semantic msg)` and hence emits
no IR. -/
theorem c5_negative_namespace_rejected (e : Expr)
    (h : hasNegativeNsConstraint e = true) :
    ∃ msg, parseChecked e = .error (.Semantic msg) := by
  obtain ⟨m, hm⟩ := irNodeChecked_neg_ns e h 0
  refine ⟨m, ?_⟩
  rw [parseChecked]
  simp only [bind, Except.bind, hm]

/-- **C5 witness**: `page("A").constraint(ns(-1))` carries a negative
namespace constraint and is rejected with a `Semantic` error. -/
theorem c5_negative_namespace_rejected_witness :
    hasNegativeNsConstraint (.Constrained (.Page ["A"]) [.Ns [-1]]) = true ∧
    ∃ msg, parseChecked (.Constrained (.Page ["A"]) [.Ns [-1]]) =
      .error (.Semantic msg) :=
  ⟨by decide, c5_negative_namespace_rejected _ (by decide)⟩

/-- **C3 counterexample**.  The query `link(page("A") and page("B"))` with
constraints `ns(0), ns(1)` compiles to an IR whose `Link` instruction has the
explicitly empty namespace set `ns = ∅` (the intersection of `{0}` and `{1}`),
and its subtree contains the binary `And`; `remove_empty_ns` replaces the
`Link` by a `Nop` and empties the two `Set` leaves but leaves the `And`
untouched (the binary arm of its `match` only pushes the operands, it does not
rewrite `ir[idx]`), so after the whole pipeline the subtree survives as
`[Set ∅, Set ∅, And]` rather than being reduced to a chain of `Nop`s
terminating at one trivially empty `Set`. -/
theorem c3_empty_ns_binary_subtree_survives :
    to_ir (.Constrained (.Unary .Link (.Binary (.Page ["A"]) .And (.Page ["B"])))
        [.Ns [0], .Ns [1]]) =
      .ok ([.Set 0 ["A"] SetConstraint.new, .Set 1 ["B"] SetConstraint.new,
            .And 2 0 1, .Link 3 2 { SetConstraint.new with ns := some ∅ }], 3) ∧
    remove_empty_ns
        [.Set 0 ["A"] SetConstraint.new, .Set 1 ["B"] SetConstraint.new,
         .And 2 0 1, .Link 3 2 { SetConstraint.new with ns := some ∅ }] =
      [.Set 0 [] SetConstraint.new, .Set 1 [] SetConstraint.new,
       .And 2 0 1, .Nop 3 2] ∧
    parse (.Constrained (.Unary .Link (.Binary (.Page ["A"]) .And (.Page ["B"])))
        [.Ns [0], .Ns [1]]) =
      .ok ([.Set 0 [] SetConstraint.new, .Set 1 [] SetConstraint.new,
            .And 3 0 1], 3) := by
  refine ⟨by decide, by decide, by decide⟩

/-- **C3 amended**.  What `remove_empty_ns` actually does for an instruction
with an explicitly empty `ns` set: it walks the register subtree rooted there
and rewrites pointwise — each output position keeps the input instruction, or
replaces a unary instruction by a `Nop` with the same `dest` and `op`, or
empties a `Set`; binary (`And`/`Or`/`Exclude`/`Xor`) instructions are never
rewritten, only descended through.  Hence only a binary-free subtree is
reduced to a single trivially empty `Set` by the pipeline (third conjunct:
`link(page("A"))` with `ns(0), ns(1)`). -/
theorem c3_empty_ns_pointwise_rewrites :
    (∀ ir : List Instruction, List.Forall₂ rewOK ir (remove_empty_ns ir)) ∧
    (∀ (ir : List Instruction) (i : Nat) (inst : Instruction),
      ir[i]? = some inst → inst.is_binary = true →
      (remove_empty_ns ir)[i]? = some inst) ∧
    parse (.Constrained (.Unary .Link (.Page ["A"])) [.Ns [0], .Ns [1]]) =
      .ok ([.Set 1 [] SetConstraint.new], 1) := by
  refine ⟨fun ir => emptyNsLoop_rew _ _ _, ?_, by decide⟩
  intro ir i inst ha hbin
  obtain ⟨b, hb, hr⟩ := forall₂_rew_get (emptyNsLoop_rew ir.length ir 0) ha
  rcases hr with hr | ⟨o, ho, hbo⟩ | ⟨d, t, cs, hset, hbo⟩
  · rw [hr] at hb; exact hb
  · cases inst <;> simp [Instruction.is_binary] at hbin <;> cases ho
  · rw [hset] at hbin; cases hbin

/-- **C3 amended witness**: the pointwise classification applied to the
singleton program `[And 2 0 1]` — a binary instruction survives the pass
unchanged. -/
theorem c3_empty_ns_pointwise_rewrites_witness :
    [Instruction.And 2 0 1][0]? = some (.And 2 0 1) ∧
    Instruction.is_binary (.And 2 0 1) = true ∧
    (remove_empty_ns [Instruction.And 2 0 1])[0]? = some (.And 2 0 1) :=
  ⟨rfl, rfl, c3_empty_ns_pointwise_rewrites.2.1 [Instruction.And 2 0 1] 0
    (.And 2 0 1) rfl rfl⟩

end PagelistBot
